import Mathlib

/-!
Verification of the governance core of the `crush` coding-agent runtime.

This file shallowly embeds, in Lean 4, the parts of the Go sources that the
verified properties are about:

* `internal/llm/tools/pathsecurity.go` — `ValidatePathSecurity` together with
  the lexical path functions it uses from Go's `path/filepath` package
  (`Clean`, `Join`, `Abs`, `Rel`), modelled at the level of `/`-separated
  path strings represented as `List Char`.
* the configuration variable resolver (`shellVariableResolver.ResolveValue`,
  `environmentVariableResolver.ResolveValue`, `validateCommand` and the
  dangerous-pattern table).
* `internal/permission/smart.go` — trust-pattern learning
  (`learnFromDecision`, `updatePatternConfidence`, `generalizePattern`).
* the LLM response cache (`ResponseCache.Get` / `Set`).
* the cost estimator (`EstimateRequestCost`, `countTokensInMessages`,
  `estimateTextTokens`, `ShouldProceed`).
* the response quality gate (`EvaluateResponse`, the five metric functions
  and `calculateOverallScore`).

Go `float64` arithmetic is modelled by exact rational arithmetic over `ℚ`;
machine integers are modelled by `ℕ`/`ℤ` (all quantities involved are small
and non-negative, so no overflow wrapping is relevant). Go maps are modelled
by association lists, `time.Time` by natural-number instants, and foreign
effects (the shell, the process environment) by explicit function
parameters.
-/

namespace Crush

/-- Characters of a Go string, in order. Go strings are byte strings; all
path and command processing in the embedded code is byte-oriented ASCII
scanning, which `List Char` models faithfully. -/
abbrev Chars := List Char

/-- Embeds Go's `strings.Contains` on character lists: does `pat` occur as
a contiguous substring of the second argument? -/
def containsSub : Chars → Chars → Bool
  | pat, [] => pat.isEmpty
  | pat, c :: rest => pat.isPrefixOf (c :: rest) || containsSub pat rest

namespace GoPath

/-- Splits a character string on `'/'`. `splitSlash "a/b" = ["a","b"]`,
`splitSlash "/a" = ["", "a"]`, `splitSlash "" = [""]`. These are exactly the
slash-delimited segments that Go's lexical path algorithms scan. -/
def splitSlash : Chars → List Chars
  | [] => [[]]
  | c :: rest =>
    if c = '/' then [] :: splitSlash rest
    else
      match splitSlash rest with
      | [] => [[c]]
      | g :: gs => (c :: g) :: gs

/-- Joins path components with `'/'`. Inverse of `splitSlash` on
slash-free, component lists. -/
def joinSlash : List Chars → Chars
  | [] => []
  | [c] => c
  | c :: cs => c ++ '/' :: joinSlash cs

/-- Whether a path is absolute (`filepath.IsAbs` on unix): it starts with
`'/'`. -/
def isAbsL (p : Chars) : Bool := p.head? = some '/'

/-- One step of the component processing performed by Go's
`filepath.Clean`: `stack` holds the already-emitted components in reverse
order; empty and `"."` components are dropped, `".."` pops a previous
component (or is kept / dropped at the start depending on rootedness), and
every other component is pushed. -/
def cleanStep (rooted : Bool) (stack : List Chars) (c : Chars) : List Chars :=
  if c = [] ∨ c = ['.'] then stack
  else if c = ['.', '.'] then
    if stack = [] then (if rooted then [] else [['.', '.']])
    else if stack.headI = ['.', '.'] then c :: stack
    else stack.tail
  else c :: stack

/-- Processes a list of path components through `cleanStep`, mirroring the
element loop of `filepath.Clean`. -/
def processComps (rooted : Bool) (comps : List Chars) (stack : List Chars) : List Chars :=
  comps.foldl (cleanStep rooted) stack

/-- Embeds Go's `filepath.Clean` (unix): lexical simplification removing
empty, `"."` and resolvable `".."` segments; the cleaned path of `""` is
`"."`, of a fully-cancelled rooted path `"/"`, of a fully-cancelled relative
path `"."`. -/
def cleanList (p : Chars) : Chars :=
  if p = [] then ['.']
  else
    let rooted := isAbsL p
    let comps := (processComps rooted (splitSlash p) []).reverse
    if comps = [] then (if rooted then ['/'] else ['.'])
    else (if rooted then ['/'] else []) ++ joinSlash comps

/-- Embeds Go's `filepath.Join` for two elements: empty elements are
skipped, the rest are joined with `'/'` and cleaned; `Join("", "") = ""`
without cleaning. -/
def goJoin (a b : Chars) : Chars :=
  if a = [] then (if b = [] then [] else cleanList b)
  else if b = [] then cleanList a
  else cleanList (a ++ '/' :: b)

/-- Embeds Go's `filepath.Abs` with the process working directory `cwd`
made an explicit parameter: an absolute path is cleaned, a relative one is
joined to `cwd`. -/
def absList (cwd p : Chars) : Chars :=
  if isAbsL p then cleanList p else goJoin cwd p

/-- Strips the longest common leading run from two component lists,
returning both remainders — the segment comparison loop of
`filepath.Rel`. -/
def stripCommon : List Chars → List Chars → List Chars × List Chars
  | b :: bs, t :: ts => if b = t then stripCommon bs ts else (b :: bs, t :: ts)
  | bs, ts => (bs, ts)

/-- Embeds Go's `filepath.Rel` (unix) at the level of slash-delimited
segments. Both arguments are cleaned first; a trailing lone empty segment
(which arises exactly when the remaining substring is empty, e.g. for base
`"/"`) counts as exhaustion, as in Go's index-based scan. A first remaining
base segment of `".."` is Go's "can't make relative" error, and mixing an
absolute with a relative path is an error; errors are collapsed to
`none`. -/
def goRel (basepath targpath : Chars) : Option Chars :=
  let base := cleanList basepath
  let targ := cleanList targpath
  if targ = base then some ['.']
  else
    let base := if base = ['.'] then [] else base
    if isAbsL base ≠ isAbsL targ then none
    else
      let p := stripCommon (splitSlash base) (splitSlash targ)
      let bRem := if p.1 = [[]] then [] else p.1
      let tRem := if p.2 = [[]] then [] else p.2
      if bRem.head? = some ['.', '.'] then none
      else if bRem = [] then some (joinSlash tRem)
      else some (joinSlash (List.replicate bRem.length ['.', '.'] ++ tRem))

/-- Embeds `ValidatePathSecurity` from
`internal/llm/tools/pathsecurity.go`. The process working directory used by
`filepath.Abs` is the explicit parameter `cwd`; the distinct Go error
messages are collapsed to `none`. Order of operations follows the source:
clean the requested path, reject a `".."` substring, resolve the working
directory and the final path to absolute form, and reject when the relative
path from the working directory starts with `".."` or `"/"`. -/
def validatePathSecurity (cwd requestedPath workingDir : Chars) : Option Chars :=
  let sanitizedPath := cleanList requestedPath
  if containsSub ['.', '.'] sanitizedPath then none
  else
    let workingDirAbs := absList cwd workingDir
    let finalPath :=
      if isAbsL sanitizedPath then sanitizedPath else goJoin workingDirAbs sanitizedPath
    let finalPathAbs := absList cwd finalPath
    match goRel workingDirAbs finalPathAbs with
    | none => none
    | some rel =>
      if List.isPrefixOf ['.', '.'] rel ∨ List.isPrefixOf ['/'] rel then none
      else some finalPathAbs

/-- Path components that can appear in a cleaned rooted path: nonempty,
slash-free, and neither `"."` nor `".."`. -/
def GoodComp (c : Chars) : Prop :=
  c ≠ [] ∧ '/' ∉ c ∧ c ≠ ['.'] ∧ c ≠ ['.', '.']

/-- Canonical form of a cleaned absolute path: a leading slash followed by
its components. -/
def mkAbs (cs : List Chars) : Chars := '/' :: joinSlash cs

theorem splitSlash_ne_nil (p : Chars) : splitSlash p ≠ [] := by
  induction p with
  | nil => simp [splitSlash]
  | cons c rest ih =>
    by_cases h : c = '/'
    · simp [splitSlash, h]
    · simp only [splitSlash, if_neg h]
      cases hr : splitSlash rest with
      | nil => exact absurd hr ih
      | cons g gs => simp

theorem splitSlash_append (a b : Chars) :
    splitSlash (a ++ '/' :: b) = splitSlash a ++ splitSlash b := by
  induction a with
  | nil => simp [splitSlash]
  | cons c rest ih =>
    by_cases h : c = '/'
    · subst h; simp [splitSlash, ih]
    · obtain ⟨g, gs, hg⟩ := List.exists_cons_of_ne_nil (splitSlash_ne_nil rest)
      simp only [List.cons_append, splitSlash, if_neg h, List.append_eq, ih, hg,
        List.cons_append]

theorem splitSlash_noSlash {p : Chars} : ∀ c ∈ splitSlash p, '/' ∉ c := by
  induction p with
  | nil => intro c hc; simp [splitSlash] at hc; simp [hc]
  | cons d rest ih =>
    intro c hc
    by_cases h : d = '/'
    · simp only [splitSlash, if_pos h, List.mem_cons] at hc
      rcases hc with hc | hc
      · simp [hc]
      · exact ih c hc
    · obtain ⟨g, gs, hg⟩ := List.exists_cons_of_ne_nil (splitSlash_ne_nil rest)
      simp only [splitSlash, if_neg h, hg, List.mem_cons] at hc
      rcases hc with hc | hc
      · subst hc
        intro hmem
        rcases List.mem_cons.mp hmem with h' | h'
        · exact h h'.symm
        · exact ih g (by simp [hg]) h'
      · exact ih c (by simp [hg, hc])

theorem noSlash_splitSlash {c : Chars} (h : '/' ∉ c) : splitSlash c = [c] := by
  induction c with
  | nil => simp [splitSlash]
  | cons d rest ih =>
    have hd : d ≠ '/' := fun hdd => h (by simp [hdd])
    have hr : '/' ∉ rest := fun hm => h (by simp [hm])
    simp only [splitSlash, if_neg hd, ih hr]

theorem joinSlash_cons {c : Chars} {cs : List Chars} (h : cs ≠ []) :
    joinSlash (c :: cs) = c ++ '/' :: joinSlash cs := by
  cases cs with
  | nil => exact absurd rfl h
  | cons d ds => rfl

theorem splitSlash_join {cs : List Chars} (h0 : cs ≠ [])
    (h : ∀ c ∈ cs, '/' ∉ c) : splitSlash (joinSlash cs) = cs := by
  induction cs with
  | nil => exact absurd rfl h0
  | cons c rest ih =>
    cases rest with
    | nil => simpa [joinSlash] using noSlash_splitSlash (h c (by simp))
    | cons d ds =>
      rw [joinSlash_cons (by simp), splitSlash_append,
        noSlash_splitSlash (h c (by simp)), ih (by simp) (fun x hx => h x (by simp [hx]))]
      rfl

theorem joinSlash_append {xs ys : List Chars} (hx : xs ≠ []) (hy : ys ≠ []) :
    joinSlash (xs ++ ys) = joinSlash xs ++ '/' :: joinSlash ys := by
  induction xs with
  | nil => exact absurd rfl hx
  | cons c rest ih =>
    cases rest with
    | nil =>
      rw [List.singleton_append, joinSlash_cons hy]
      rfl
    | cons d ds =>
      rw [List.cons_append, joinSlash_cons (by simp), joinSlash_cons (by simp),
        ih (by simp)]
      simp

theorem head_prefix_joinSlash (c : Chars) (cs : List Chars) :
    c <+: joinSlash (c :: cs) := by
  cases cs with
  | nil => exact List.prefix_rfl
  | cons d ds => rw [joinSlash_cons (by simp)]; exact List.prefix_append _ _

theorem cleanStep_good {stack : List Chars} {c : Chars} (rooted : Bool)
    (h1 : c ≠ []) (h2 : c ≠ ['.']) (h3 : c ≠ ['.', '.']) :
    cleanStep rooted stack c = c :: stack := by
  simp [cleanStep, h1, h2, h3]

theorem processComps_good (rooted : Bool) {cs : List Chars}
    (h : ∀ c ∈ cs, GoodComp c) :
    ∀ stack, processComps rooted cs stack = cs.reverse ++ stack := by
  induction cs with
  | nil => intro stack; rfl
  | cons c rest ih =>
    intro stack
    obtain ⟨h1, _, h2, h3⟩ := h c (by simp)
    show processComps rooted rest (cleanStep rooted stack c) = _
    rw [cleanStep_good rooted h1 h2 h3, ih (fun x hx => h x (by simp [hx]))]
    simp

theorem processComps_true_good {cs : List Chars}
    (hcs : ∀ c ∈ cs, '/' ∉ c) :
    ∀ stack, (∀ c ∈ stack, GoodComp c) →
      ∀ c ∈ processComps true cs stack, GoodComp c := by
  induction cs with
  | nil => intro stack hst c hc; exact hst c hc
  | cons a rest ih =>
    intro stack hst x hx
    refine ih (fun u hu => hcs u (by simp [hu])) (cleanStep true stack a) ?_ x hx
    intro y hy
    by_cases h1 : a = [] ∨ a = ['.']
    · simp only [cleanStep, if_pos h1] at hy; exact hst y hy
    · by_cases h2 : a = ['.', '.']
      · simp only [cleanStep, if_neg h1, if_pos h2] at hy
        cases hstk : stack with
        | nil => rw [hstk] at hy; simp at hy
        | cons top restS =>
          rw [hstk] at hy
          have htop : GoodComp top := hst top (by simp [hstk])
          rw [if_neg (by simp), List.headI_cons, if_neg htop.2.2.2, List.tail_cons] at hy
          exact hst y (by simp [hstk, hy])
      · simp only [cleanStep, if_neg h1, if_neg h2] at hy
        rcases List.mem_cons.mp hy with hy | hy
        · subst hy
          push_neg at h1
          exact ⟨h1.1, hcs y (by simp), h1.2, h2⟩
        · exact hst y hy

theorem processComps_ne_nil (rooted : Bool) (cs : List Chars) :
    ∀ stack, (∀ c ∈ stack, c ≠ []) →
      ∀ c ∈ processComps rooted cs stack, c ≠ [] := by
  induction cs with
  | nil => intro stack hst c hc; exact hst c hc
  | cons a rest ih =>
    intro stack hst x hx
    refine ih (cleanStep rooted stack a) ?_ x hx
    intro y hy
    by_cases h1 : a = [] ∨ a = ['.']
    · simp only [cleanStep, if_pos h1] at hy; exact hst y hy
    · by_cases h2 : a = ['.', '.']
      · simp only [cleanStep, if_neg h1, if_pos h2] at hy
        cases hstk : stack with
        | nil =>
          rw [hstk] at hy
          cases rooted with
          | false => simp at hy; simp [hy]
          | true => simp at hy
        | cons top restS =>
          rw [hstk] at hy
          rw [if_neg (by simp), List.headI_cons] at hy
          by_cases htop : top = ['.', '.']
          · rw [if_pos htop] at hy
            rcases List.mem_cons.mp hy with hy | hy
            · subst hy; simp [h2]
            · exact hst y (hstk ▸ hy)
          · rw [if_neg htop, List.tail_cons] at hy
            exact hst y (by simp [hstk, hy])
      · simp only [cleanStep, if_neg h1, if_neg h2] at hy
        rcases List.mem_cons.mp hy with hy | hy
        · subst hy; push_neg at h1; exact h1.1
        · exact hst y hy

theorem isAbsL_mkAbs (cs : List Chars) : isAbsL (mkAbs cs) = true := rfl

theorem mkAbs_ne_nil (cs : List Chars) : mkAbs cs ≠ [] := by simp [mkAbs]

theorem mkAbs_ne_dot (cs : List Chars) : mkAbs cs ≠ ['.'] := by
  intro h
  have := congrArg List.head? h
  simp [mkAbs] at this

theorem processComps_cons (rooted : Bool) (c : Chars) (cs stack : List Chars) :
    processComps rooted (c :: cs) stack = processComps rooted cs (cleanStep rooted stack c) := rfl

theorem cleanStep_skip {c : Chars} (rooted : Bool) (stack : List Chars)
    (h : c = [] ∨ c = ['.']) : cleanStep rooted stack c = stack := by
  simp [cleanStep, h]

theorem joinSlash_ne_nil {a : Chars} (as : List Chars) (h : a ≠ []) :
    joinSlash (a :: as) ≠ [] := by
  cases as with
  | nil => exact h
  | cons d ds => rw [joinSlash_cons (by simp)]; simp

theorem isAbsL_append {a : Chars} (b : Chars) (h : isAbsL a = true) :
    isAbsL (a ++ b) = true := by
  cases a with
  | nil => simp [isAbsL] at h
  | cons c rest => simpa [isAbsL] using h

theorem cleanList_rooted {p : Chars} (h : isAbsL p = true) :
    ∃ cs, (∀ c ∈ cs, GoodComp c) ∧ cleanList p = mkAbs cs := by
  have hp : p ≠ [] := by
    intro he; rw [he] at h; simp [isAbsL] at h
  refine ⟨(processComps true (splitSlash p) []).reverse, ?_, ?_⟩
  · intro c hc
    exact processComps_true_good (fun u hu => splitSlash_noSlash u hu) [] (by simp) c
      (List.mem_reverse.mp hc)
  · by_cases hc : (processComps true (splitSlash p) []).reverse = []
    · rw [hc]
      simp only [cleanList, if_neg hp, h, hc, if_pos rfl, if_true]
      rfl
    · simp only [cleanList, if_neg hp, h, if_neg hc, if_true]
      rfl

theorem splitSlash_mkAbs (cs : List Chars) (h : ∀ c ∈ cs, '/' ∉ c) :
    splitSlash (mkAbs cs) = [] :: (if cs = [] then [[]] else cs) := by
  cases cs with
  | nil => simp [mkAbs, joinSlash, splitSlash]
  | cons a rest =>
    have hj : splitSlash (joinSlash (a :: rest)) = a :: rest :=
      splitSlash_join (by simp) h
    simp [mkAbs, splitSlash, hj]

theorem cleanList_mkAbs {cs : List Chars} (h : ∀ c ∈ cs, GoodComp c) :
    cleanList (mkAbs cs) = mkAbs cs := by
  cases cs with
  | nil => decide
  | cons a rest =>
    have hsplit := splitSlash_mkAbs (a :: rest) (fun c hc => (h c hc).2.1)
    rw [if_neg (by simp)] at hsplit
    have hproc : processComps true (splitSlash (mkAbs (a :: rest))) [] = (a :: rest).reverse := by
      rw [hsplit, processComps_cons, cleanStep_skip true [] (Or.inl rfl),
        processComps_good true h]
      simp
    simp only [cleanList, if_neg (mkAbs_ne_nil (a :: rest)), isAbsL_mkAbs, hproc, if_true]
    rw [if_neg (by simp), List.reverse_reverse]
    rfl

theorem cleanList_ne_nil (p : Chars) : cleanList p ≠ [] := by
  by_cases hp : p = []
  · simp [cleanList, hp]
  · simp only [cleanList, if_neg hp]
    by_cases hc : (processComps (isAbsL p) (splitSlash p) []).reverse = []
    · rw [if_pos hc]; cases isAbsL p <;> simp
    · rw [if_neg hc]
      obtain ⟨a, as, ha⟩ := List.exists_cons_of_ne_nil hc
      have hane : a ≠ [] :=
        processComps_ne_nil (isAbsL p) (splitSlash p) [] (by simp) a
          (List.mem_reverse.mp (by simp [ha]))
      rw [ha]
      cases isAbsL p with
      | true => simp
      | false => simpa using joinSlash_ne_nil as hane

theorem stripCommon_nil_left (ts : List Chars) : stripCommon [] ts = ([], ts) := by
  cases ts <;> rfl

theorem stripCommon_nil_right (bs : List Chars) : stripCommon bs [] = (bs, []) := by
  cases bs <;> rfl

theorem stripCommon_cons_eq {b t : Chars} (bs ts : List Chars) (h : b = t) :
    stripCommon (b :: bs) (t :: ts) = stripCommon bs ts := by
  simp [stripCommon, h]

theorem stripCommon_cons_ne {b t : Chars} (bs ts : List Chars) (h : b ≠ t) :
    stripCommon (b :: bs) (t :: ts) = (b :: bs, t :: ts) := by
  simp [stripCommon, h]

theorem stripCommon_spec : ∀ bs ts : List Chars,
    ∃ com, bs = com ++ (stripCommon bs ts).1 ∧ ts = com ++ (stripCommon bs ts).2
  | [], ts => ⟨[], by simp [stripCommon_nil_left]⟩
  | b :: bs, [] => ⟨[], by simp [stripCommon_nil_right]⟩
  | b :: bs, t :: ts => by
    by_cases h : b = t
    · obtain ⟨com, h1, h2⟩ := stripCommon_spec bs ts
      subst h
      exact ⟨b :: com, by
        rw [stripCommon_cons_eq bs ts rfl]
        constructor
        · rw [List.cons_append, ← h1]
        · rw [List.cons_append, ← h2]⟩
    · exact ⟨[], by simp [stripCommon_cons_ne bs ts h]⟩

theorem dotdot_prefix_rel {n : ℕ} (hn : n ≠ 0) (tRem : List Chars) :
    ['.', '.'] <+: joinSlash (List.replicate n ['.', '.'] ++ tRem) := by
  cases n with
  | zero => exact absurd rfl hn
  | succ m =>
    rw [List.replicate_succ, List.cons_append]
    exact head_prefix_joinSlash _ _

theorem stripCommon_cons_self (b : Chars) (bs ts : List Chars) :
    stripCommon (b :: bs) (b :: ts) = stripCommon bs ts :=
  stripCommon_cons_eq bs ts rfl

/-- If `Rel` from one cleaned absolute path to another succeeds and its
result does not start with `".."`, then the base path's components are an
initial run of the target's, so the base is a string-level prefix of the
target. -/
theorem goRel_sub {bs ts : List Chars} {rel : Chars}
    (hb : ∀ c ∈ bs, GoodComp c) (ht : ∀ c ∈ ts, GoodComp c)
    (h : goRel (mkAbs bs) (mkAbs ts) = some rel)
    (hp : ¬ ['.', '.'] <+: rel) :
    mkAbs bs <+: mkAbs ts := by
  by_cases heq : mkAbs ts = mkAbs bs
  · rw [heq]
  · simp only [goRel, cleanList_mkAbs hb, cleanList_mkAbs ht, if_neg heq,
      if_neg (mkAbs_ne_dot bs), isAbsL_mkAbs, ne_eq, not_true_eq_false, if_false,
      splitSlash_mkAbs bs (fun c hc => (hb c hc).2.1),
      splitSlash_mkAbs ts (fun c hc => (ht c hc).2.1),
      stripCommon_cons_self] at h
    cases bs with
    | nil =>
      cases ts with
      | nil => exact absurd rfl heq
      | cons t ts' =>
        have htgood := ht t (by simp)
        have htne : ([] : Chars) ≠ t := fun he => htgood.1 he.symm
        have hts : (t :: ts' : List Chars) ≠ [[]] := by
          intro he
          injection he with h1 _
          exact htgood.1 h1
        simp only [if_pos rfl, if_neg (by simp : (t :: ts' : List Chars) ≠ []),
          stripCommon_cons_ne ([] : List Chars) ts' htne, if_neg hts,
          List.head?_nil, reduceCtorEq, if_false, if_pos rfl, Option.some.injEq] at h
        simp only [mkAbs, joinSlash]
        exact List.cons_prefix_cons.mpr ⟨rfl, List.nil_prefix⟩
    | cons b bs' =>
      have hbgood := hb b (by simp)
      cases ts with
      | nil =>
        have hbne : b ≠ ([] : Chars) := hbgood.1
        have hbs : (b :: bs' : List Chars) ≠ [[]] := by
          intro he
          injection he with h1 _
          exact hbgood.1 h1
        simp only [if_neg (by simp : (b :: bs' : List Chars) ≠ []), if_true,
          stripCommon_cons_ne bs' ([] : List Chars) hbne, if_neg hbs,
          List.head?_cons, Option.some.injEq, if_pos rfl] at h
        by_cases hbdd : b = ['.', '.']
        · rw [if_pos hbdd] at h
          exact absurd h (by simp)
        · rw [if_neg hbdd] at h
          rw [Option.some.injEq] at h
          exact absurd (h ▸ dotdot_prefix_rel (by simp) _) hp
      | cons t ts' =>
        simp only [if_neg (by simp : (b :: bs' : List Chars) ≠ []),
          if_neg (by simp : (t :: ts' : List Chars) ≠ [])] at h
        obtain ⟨com, hcb, hct⟩ := stripCommon_spec (b :: bs') (t :: ts')
        cases hsc : (stripCommon (b :: bs') (t :: ts')).1 with
        | nil =>
          rw [hsc, List.append_nil] at hcb
          have htRem : (stripCommon (b :: bs') (t :: ts')).2 ≠ [[]] := by
            intro he
            have : ([] : Chars) ∈ t :: ts' := by
              rw [hct, he]; simp
            rcases List.mem_cons.mp this with h' | h'
            · exact (ht t (by simp)).1 h'.symm
            · exact (ht [] (by simp [h'])).1 rfl
          have htRemNe : (stripCommon (b :: bs') (t :: ts')).2 ≠ [] := by
            intro he
            rw [he, List.append_nil] at hct
            exact heq (by rw [hct, ← hcb])
          simp only [hsc, if_neg (by simp : ¬([] : List Chars) = [[]]), List.head?_nil,
            reduceCtorEq, if_false, if_pos rfl, if_neg htRem, Option.some.injEq] at h
          rw [hcb, hct]
          simp only [mkAbs]
          refine List.cons_prefix_cons.mpr ⟨rfl, ?_⟩
          rw [joinSlash_append (hcb ▸ (by simp : (b :: bs' : List Chars) ≠ [])) htRemNe]
          exact List.prefix_append _ _
        | cons bh bs'' =>
          have hbh : GoodComp bh := by
            refine hb bh ?_
            rw [hcb, hsc]
            simp
          have hne1 : (bh :: bs'' : List Chars) ≠ [[]] := by
            intro he
            injection he with h1 _
            exact hbh.1 h1
          simp only [hsc, if_neg hne1, List.head?_cons, Option.some.injEq,
            if_neg hbh.2.2.2, if_neg (by simp : (bh :: bs'' : List Chars) ≠ []),
            Option.some.injEq] at h
          exact absurd (h ▸ dotdot_prefix_rel (by simp) _) hp

theorem absList_form {cwd : Chars} (p : Chars) (h : isAbsL cwd = true) :
    ∃ cs, (∀ c ∈ cs, GoodComp c) ∧ absList cwd p = mkAbs cs := by
  by_cases hp : isAbsL p = true
  · simp only [absList, hp, if_true]
    exact cleanList_rooted hp
  · simp only [absList, hp, if_false]
    have hcwd : cwd ≠ [] := by
      intro he; rw [he] at h; simp [isAbsL] at h
    by_cases hpe : p = []
    · simp only [goJoin, if_neg hcwd, if_pos hpe]
      exact cleanList_rooted h
    · simp only [goJoin, if_neg hcwd, if_neg hpe]
      exact cleanList_rooted (isAbsL_append _ h)

theorem absList_mkAbs (cwd : Chars) {cs : List Chars} (h : ∀ c ∈ cs, GoodComp c) :
    absList cwd (mkAbs cs) = mkAbs cs := by
  simp only [absList, isAbsL_mkAbs, if_true, cleanList_mkAbs h]

theorem goJoin_dot {cs : List Chars} (h : ∀ c ∈ cs, GoodComp c) :
    goJoin (mkAbs cs) ['.'] = mkAbs cs := by
  rw [goJoin, if_neg (mkAbs_ne_nil cs), if_neg (by simp : (['.'] : Chars) ≠ [])]
  have hne1 : mkAbs cs ++ '/' :: ['.'] ≠ [] := by simp [mkAbs]
  have habs : isAbsL (mkAbs cs ++ '/' :: ['.']) = true := isAbsL_append _ (isAbsL_mkAbs cs)
  have hstack : processComps true (splitSlash (mkAbs cs ++ '/' :: ['.'])) []
      = processComps true (splitSlash (mkAbs cs)) [] := by
    rw [splitSlash_append, show splitSlash ['.'] = [['.']] from rfl, processComps,
      List.foldl_append]
    rfl
  calc cleanList (mkAbs cs ++ '/' :: ['.'])
      = cleanList (mkAbs cs) := by
        simp only [cleanList, if_neg hne1, if_neg (mkAbs_ne_nil cs), habs, isAbsL_mkAbs,
          hstack]
    _ = mkAbs cs := cleanList_mkAbs h

theorem goRel_self {cs : List Chars} (h : ∀ c ∈ cs, GoodComp c) :
    goRel (mkAbs cs) (mkAbs cs) = some ['.'] := by
  simp only [goRel, cleanList_mkAbs h, if_pos rfl, if_true]

theorem validatePathSecurity_sub {cwd req wd final : Chars} (hcwd : isAbsL cwd = true)
    (hval : validatePathSecurity cwd req wd = some final) :
    absList cwd wd <+: final := by
  obtain ⟨bs, hbs, hwd⟩ := absList_form wd hcwd
  simp only [validatePathSecurity] at hval
  by_cases hdots : containsSub ['.', '.'] (cleanList req) = true
  · rw [if_pos hdots] at hval
    exact absurd hval (by simp)
  · rw [if_neg hdots] at hval
    obtain ⟨ts, hts, hfin⟩ :=
      absList_form (if isAbsL (cleanList req) then cleanList req
        else goJoin (absList cwd wd) (cleanList req)) hcwd
    rw [hfin, hwd] at hval
    cases hrel : goRel (mkAbs bs) (mkAbs ts) with
    | none => rw [hrel] at hval; exact absurd hval (by simp)
    | some rel =>
      rw [hrel] at hval
      simp only [] at hval
      by_cases hcond : (List.isPrefixOf ['.', '.'] rel = true ∨ List.isPrefixOf ['/'] rel = true)
      · rw [if_pos hcond] at hval
        exact absurd hval (by simp)
      · rw [if_neg hcond] at hval
        have hfinal : final = mkAbs ts := (Option.some.injEq _ _ ▸ hval).symm
        have hp : ¬ ['.', '.'] <+: rel := fun hpre =>
          (not_or.mp hcond).1 (List.isPrefixOf_iff_prefix.mpr hpre)
        rw [hwd, hfinal]
        exact goRel_sub hbs hts hrel hp

theorem validatePathSecurity_dotlike {cwd wd : Chars} (req : Chars)
    (hcwd : isAbsL cwd = true) (hreq : cleanList req = ['.']) :
    validatePathSecurity cwd req wd = some (absList cwd wd) := by
  obtain ⟨bs, hbs, hwd⟩ := absList_form wd hcwd
  simp only [validatePathSecurity, hreq]
  rw [if_neg (by decide : ¬(containsSub ['.', '.'] ['.'] = true))]
  simp only [show isAbsL ['.'] = false from rfl, Bool.false_eq_true, if_false]
  rw [hwd, goJoin_dot hbs, absList_mkAbs cwd hbs, goRel_self hbs]
  simp [show ¬(List.isPrefixOf ['.', '.'] ['.'] = true ∨ List.isPrefixOf ['/'] ['.'] = true)
    from by decide]

end GoPath

end Crush

/-- C1: for every process working directory, requested path and working
directory on which the embedded `ValidatePathSecurity` succeeds, the
returned canonical path has the canonical working directory (the
`filepath.Abs` image of the working directory) as a prefix or equals it;
moreover the empty requested path and `"."` are accepted and resolve to the
canonical working directory itself. -/
theorem validatePathSecurity_canonical_within_workingDir :
    (∀ cwd req wd final : Crush.Chars, Crush.GoPath.isAbsL cwd = true →
        Crush.GoPath.validatePathSecurity cwd req wd = some final →
        Crush.GoPath.absList cwd wd <+: final)
    ∧ (∀ cwd wd : Crush.Chars, Crush.GoPath.isAbsL cwd = true →
        Crush.GoPath.validatePathSecurity cwd [] wd
            = some (Crush.GoPath.absList cwd wd)
        ∧ Crush.GoPath.validatePathSecurity cwd ['.'] wd
            = some (Crush.GoPath.absList cwd wd)) := by
  constructor
  · intro cwd req wd final hcwd hval
    exact Crush.GoPath.validatePathSecurity_sub hcwd hval
  · intro cwd wd hcwd
    exact ⟨Crush.GoPath.validatePathSecurity_dotlike [] hcwd rfl,
      Crush.GoPath.validatePathSecurity_dotlike ['.'] hcwd (by decide)⟩

/-- Witness for C1 at concrete inputs: working directory `/tmp/work`,
process directory `/cwd`, requested path `sub/x.txt` (and the empty
path). -/
theorem validatePathSecurity_canonical_within_workingDir_witness :
    Crush.GoPath.isAbsL ("/cwd".data) = true
    ∧ Crush.GoPath.validatePathSecurity ("/cwd".data) ("sub/x.txt".data) ("/tmp/work".data)
        = some ("/tmp/work/sub/x.txt".data)
    ∧ Crush.GoPath.absList ("/cwd".data) ("/tmp/work".data) <+: ("/tmp/work/sub/x.txt".data)
    ∧ Crush.GoPath.validatePathSecurity ("/cwd".data) [] ("/tmp/work".data)
        = some (Crush.GoPath.absList ("/cwd".data) ("/tmp/work".data)) := by
  refine ⟨by decide, by decide, ?_, ?_⟩
  · exact validatePathSecurity_canonical_within_workingDir.1 ("/cwd".data) ("sub/x.txt".data)
      ("/tmp/work".data) ("/tmp/work/sub/x.txt".data) (by decide) (by decide)
  · exact (validatePathSecurity_canonical_within_workingDir.2 ("/cwd".data)
      ("/tmp/work".data) (by decide)).1

namespace Crush.Perm

open Crush.GoPath

/-- Embeds `SmartPermissionPattern` from `internal/permission/smart.go`.
Timestamps are rational instants measured in days (Go computes
`time.Since(lastUsed).Hours()/24`, so only day-differences matter);
`float64` is modelled by `ℚ`. -/
structure SmartPermissionPattern where
  toolName : String
  action : String
  pathPattern : Chars
  approvalCount : ℕ
  denialCount : ℕ
  lastUsed : ℚ
  confidence : ℚ
  autoApprove : Bool

/-- The auto-approval confidence threshold set by
`NewSmartPermissionService` (0.8). -/
def confidenceThreshold : ℚ := 8 / 10

/-- Embeds `updatePatternConfidence`: recomputes `confidence` as
`approvalRate × sampleSizeBonus × timeDecay` and re-derives `autoApprove`.
`now` is the current instant in days; the Go code's two sequential
threshold `if`s are written as equivalent nested conditionals. -/
def updatePatternConfidence (now : ℚ) (p : SmartPermissionPattern) : SmartPermissionPattern :=
  let total := p.approvalCount + p.denialCount
  if total = 0 then { p with confidence := 0, autoApprove := false }
  else
    let approvalRate : ℚ := (p.approvalCount : ℚ) / (total : ℚ)
    let sampleSizeBonus : ℚ := if total ≥ 10 then 12 / 10 else if total ≥ 5 then 11 / 10 else 1
    let daysSinceLastUse : ℚ := now - p.lastUsed
    let timeDecay : ℚ :=
      if daysSinceLastUse > 90 then 7 / 10
      else if daysSinceLastUse > 30 then 9 / 10
      else 1
    let confidence := approvalRate * sampleSizeBonus * timeDecay
    { p with
      confidence := confidence,
      autoApprove :=
        decide (confidence ≥ confidenceThreshold) && decide (p.approvalCount ≥ 3)
          && decide (p.denialCount = 0) }

/-- Embeds the per-pattern effect of `learnFromDecision`: bump the
approval or denial count, refresh `lastUsed` to the current instant, and
recompute confidence and auto-approval. (The surrounding map bookkeeping
selects the pattern for the request's generalized key; the claim-relevant
state evolution is per key.) -/
def learnFromDecision (now : ℚ) (approved : Bool) (p : SmartPermissionPattern) : SmartPermissionPattern :=
  let p' :=
    if approved then { p with approvalCount := p.approvalCount + 1 }
    else { p with denialCount := p.denialCount + 1 }
  updatePatternConfidence now { p' with lastUsed := now }

/-- Embeds `filepath.Dir`: everything up to and including the final slash,
cleaned; `"."` when there is no slash. -/
def goDir (p : Chars) : Chars :=
  cleanList (p.reverse.dropWhile (fun c => c ≠ '/')).reverse

/-- Embeds `strings.ReplaceAll` for a nonempty pattern: replaces
non-overlapping occurrences left to right. -/
def replaceAll (old new : Chars) : Chars → Chars
  | [] => []
  | c :: rest =>
    if old.isPrefixOf (c :: rest) ∧ old ≠ [] then
      new ++ replaceAll old new (rest.drop (old.length - 1))
    else c :: replaceAll old new rest
termination_by s => s.length
decreasing_by
  · simp only [List.length_cons, List.length_drop]
    omega
  · simp only [List.length_cons]
    omega

/-- The `(pattern, replacement)` table of `generalizePattern`, exactly as
the Go source spells it: the patterns are the *literal characters* of the
backquoted strings (`\d+`, `[a-f0-9]\x7b8,\x7d`, `\.tmp\w*`, `_\d+\.`). -/
def generalizeTable : List (Chars × Chars) :=
  [("\\d+".data, "*".data),
   ("[a-f0-9]\x7b8,\x7d".data, "*".data),
   ("\\.tmp\\w*".data, ".tmp*".data),
   ("_\\d+\\.".data, "_*.".data)]

/-- Embeds `generalizePattern`: absolute paths are first made relative to
the learning file's directory when `Rel` succeeds; then each table entry is
applied with `strings.Contains` / `strings.ReplaceAll` on the literal
pattern text. -/
def generalizePattern (learningFile : Chars) (path : Chars) : Chars :=
  let path :=
    if isAbsL path then
      match goRel (goDir learningFile) path with
      | some rel => rel
      | none => path
    else path
  generalizeTable.foldl
    (fun g p => if containsSub p.1 g then replaceAll p.1 p.2 g else g) path

theorem updatePatternConfidence_denialCount (now : ℚ) (p : SmartPermissionPattern) :
    (updatePatternConfidence now p).denialCount = p.denialCount := by
  unfold updatePatternConfidence
  by_cases h : p.approvalCount + p.denialCount = 0 <;> simp [h]

theorem updatePatternConfidence_autoApprove_of_denied {p : SmartPermissionPattern}
    (now : ℚ) (h : p.denialCount ≠ 0) :
    (updatePatternConfidence now p).autoApprove = false := by
  unfold updatePatternConfidence
  by_cases htot : p.approvalCount + p.denialCount = 0 <;> simp [htot, h]

theorem learnFromDecision_denialCount (now : ℚ) (b : Bool) (p : SmartPermissionPattern) :
    (learnFromDecision now b p).denialCount
      = if b then p.denialCount else p.denialCount + 1 := by
  unfold learnFromDecision
  cases b <;> simp [updatePatternConfidence_denialCount]

theorem learnFromDecision_autoApprove_of_denied (now : ℚ) (b : Bool)
    {p : SmartPermissionPattern} (h : 1 ≤ p.denialCount ∨ b = false) :
    (learnFromDecision now b p).autoApprove = false := by
  unfold learnFromDecision
  cases b with
  | false =>
    exact updatePatternConfidence_autoApprove_of_denied now (by simp)
  | true =>
    rcases h with h | h
    · exact updatePatternConfidence_autoApprove_of_denied now (by simp; omega)
    · exact absurd h (by simp)

theorem updatePatternConfidence_confidence_bounds (now : ℚ) (p : SmartPermissionPattern) :
    0 ≤ (updatePatternConfidence now p).confidence
    ∧ (updatePatternConfidence now p).confidence ≤ 6 / 5 := by
  unfold updatePatternConfidence
  by_cases h : p.approvalCount + p.denialCount = 0
  · simp [h]
    norm_num
  · have hpos : (0 : ℚ) < ((p.approvalCount + p.denialCount : ℕ) : ℚ) := by
      exact_mod_cast Nat.pos_of_ne_zero h
    have hrate0 : 0 ≤ ((p.approvalCount : ℕ) : ℚ) / ((p.approvalCount + p.denialCount : ℕ) : ℚ) :=
      div_nonneg (by positivity) (le_of_lt hpos)
    have hrate1 : ((p.approvalCount : ℕ) : ℚ) / ((p.approvalCount + p.denialCount : ℕ) : ℚ) ≤ 1 := by
      rw [div_le_one hpos]
      exact_mod_cast Nat.le_add_right _ _
    simp only [if_neg h]
    constructor <;> split_ifs <;> nlinarith [hrate0, hrate1]

end Crush.Perm

/-- C3 counterexample: after a fifth consecutive approval on a fresh
pattern, `learnFromDecision` recomputes a confidence of 1.1, strictly
above 1, so the confidence does not always lie in `[0, 1]`. -/
theorem learnFromDecision_confidence_exceeds_one :
    (Crush.Perm.learnFromDecision 0 true
        ⟨"bash", "execute", [], 4, 0, 0, 0, false⟩).confidence = 11 / 10
    ∧ ¬ (Crush.Perm.learnFromDecision 0 true
        ⟨"bash", "execute", [], 4, 0, 0, 0, false⟩).confidence ≤ 1 := by
  have h : (Crush.Perm.learnFromDecision 0 true
      ⟨"bash", "execute", [], 4, 0, 0, 0, false⟩).confidence = 11 / 10 := by
    norm_num [Crush.Perm.learnFromDecision, Crush.Perm.updatePatternConfidence]
  refine ⟨h, ?_⟩
  rw [h]
  norm_num

/-- C3 (amended): after every `learnFromDecision` update, for every
combination of counts and elapsed time, the recomputed confidence lies in
`[0, 1.2]` (the product of an approval rate in `[0,1]`, a sample-size
bonus of at most 1.2 and a time decay of at most 1). -/
theorem learnFromDecision_confidence_bounds (now : ℚ) (approved : Bool)
    (p : Crush.Perm.SmartPermissionPattern) :
    0 ≤ (Crush.Perm.learnFromDecision now approved p).confidence
    ∧ (Crush.Perm.learnFromDecision now approved p).confidence ≤ 6 / 5 := by
  unfold Crush.Perm.learnFromDecision
  exact Crush.Perm.updatePatternConfidence_confidence_bounds now _

/-- C4: once a denial has been recorded for a pattern, `autoApprove` is
false after that update and after every later `learnFromDecision` for the
same key, no matter how many approvals follow, because the denial count
never returns to 0. -/
theorem denial_permanently_disables_autoApprove
    (p : Crush.Perm.SmartPermissionPattern) (now : ℚ) (ds : List (Bool × ℚ)) :
    1 ≤ (ds.foldl (fun q d => Crush.Perm.learnFromDecision d.2 d.1 q)
        (Crush.Perm.learnFromDecision now false p)).denialCount
    ∧ (ds.foldl (fun q d => Crush.Perm.learnFromDecision d.2 d.1 q)
        (Crush.Perm.learnFromDecision now false p)).autoApprove = false := by
  have key : ∀ (l : List (Bool × ℚ)) (q : Crush.Perm.SmartPermissionPattern),
      1 ≤ q.denialCount → q.autoApprove = false →
      1 ≤ (l.foldl (fun q d => Crush.Perm.learnFromDecision d.2 d.1 q) q).denialCount
      ∧ (l.foldl (fun q d => Crush.Perm.learnFromDecision d.2 d.1 q) q).autoApprove = false := by
    intro l
    induction l with
    | nil => intro q h1 h2; exact ⟨h1, h2⟩
    | cons d rest ih =>
      intro q h1 h2
      refine ih (Crush.Perm.learnFromDecision d.2 d.1 q) ?_ ?_
      · rw [Crush.Perm.learnFromDecision_denialCount]
        split_ifs <;> omega
      · exact Crush.Perm.learnFromDecision_autoApprove_of_denied d.2 d.1 (Or.inl h1)
  apply key
  · rw [Crush.Perm.learnFromDecision_denialCount]
    simp
  · exact Crush.Perm.learnFromDecision_autoApprove_of_denied now false (Or.inr rfl)

/-- C5: `generalizePattern` performs literal-string matching on the regex
source text (`\d+` etc.), so the structurally similar paths
`file123.txt` and `file456.txt` are returned unchanged — no wildcard is
substituted and the two paths do not converge to one pattern key. -/
theorem generalizePattern_does_not_generalize :
    Crush.Perm.generalizePattern ("/w/.crush/permission_patterns.json".data)
        ("file123.txt".data) = "file123.txt".data
    ∧ Crush.Perm.generalizePattern ("/w/.crush/permission_patterns.json".data)
        ("file456.txt".data) = "file456.txt".data
    ∧ Crush.Perm.generalizePattern ("/w/.crush/permission_patterns.json".data)
        ("file123.txt".data)
      ≠ Crush.Perm.generalizePattern ("/w/.crush/permission_patterns.json".data)
        ("file456.txt".data) := by
  refine ⟨?_, ?_, ?_⟩ <;> decide

/-- Decidable equality for `Except` results, so that concrete runs of the
embedded fallible functions can be checked by `decide`. -/
instance exceptDecidableEq {ε α : Type} [DecidableEq ε] [DecidableEq α] :
    DecidableEq (Except ε α) := fun x y =>
  match x, y with
  | .ok a, .ok b => if h : a = b then .isTrue (by rw [h]) else .isFalse (by simp [h])
  | .error a, .error b => if h : a = b then .isTrue (by rw [h]) else .isFalse (by simp [h])
  | .ok _, .error _ => .isFalse (by simp)
  | .error _, .ok _ => .isFalse (by simp)

namespace Crush.Config

open Crush

/-- Word character of Go's RE2 `\w` / `\b`: `[0-9A-Za-z_]`. -/
def isWordChar (c : Char) : Bool := c.isAlpha || c.isDigit || c = '_'

/-- Whitespace of Go's RE2 `\s`: `[\t\n\f\r ]`. -/
def isSpaceRE (c : Char) : Bool :=
  c = ' ' || c = '\t' || c = '\n' || c = '\x0c' || c = '\r'

/-- Unicode white space as used by Go's `strings.Fields` and
`strings.TrimSpace` (`unicode.IsSpace`), restricted to the Latin-1 range. -/
def isGoSpace (c : Char) : Bool :=
  c = ' ' || c = '\t' || c = '\n' || c = '\x0b' || c = '\x0c' || c = '\r'
    || c = '\x85' || c = '\xa0'

/-- Left word boundary: start of text or a preceding non-word character. -/
def boundaryL : Option Char → Bool
  | none => true
  | some p => !isWordChar p

/-- Right word boundary: end of text or a following non-word character. -/
def boundaryR : Chars → Bool
  | [] => true
  | a :: _ => !isWordChar a

/-- Scans for an occurrence of the word `w` with `\b` on both sides;
`k` receives the text following the matched word and decides the rest of
the pattern. `prev` is the character before the current position. -/
def scanWordAux (w : Chars) (k : Chars → Bool) : Option Char → Chars → Bool
  | _, [] => false
  | prev, c :: rest =>
    (boundaryL prev && w.isPrefixOf (c :: rest)
        && boundaryR ((c :: rest).drop w.length) && k ((c :: rest).drop w.length))
      || scanWordAux w k (some c) rest

/-- Matches `\bw\b` followed by whatever `k` accepts. -/
def containsWordThen (w : Chars) (k : Chars → Bool) (s : Chars) : Bool :=
  scanWordAux w k none s

/-- Matches `\bw\b` anywhere. -/
def containsWord (w : Chars) (s : Chars) : Bool :=
  containsWordThen w (fun _ => true) s

/-- Matches `.*` followed by whatever `k` accepts: tries `k` at every
position reachable without crossing a newline (RE2's `.` does not match
`\n`). -/
def dotStarThen (k : Chars → Bool) : Chars → Bool
  | [] => k []
  | c :: rest => k (c :: rest) || (!(c = '\n') && dotStarThen k rest)

/-- Matches `\s*` followed by whatever `k` accepts. -/
def spacesThen (k : Chars → Bool) : Chars → Bool
  | [] => k []
  | c :: rest => k (c :: rest) || (isSpaceRE c && spacesThen k rest)

/-- Matches the literal `w` here, with a `\b` after it. -/
def litWordR (w : Chars) (s : Chars) : Bool :=
  w.isPrefixOf s && boundaryR (s.drop w.length)

/-- Matches `-[rf]` at the current position. -/
def dashRF : Chars → Bool
  | '-' :: c :: _ => c = 'r' || c = 'f'
  | _ => false

/-- Scans for `[;&|]\s*rm\b`. -/
def chainRm : Chars → Bool
  | [] => false
  | c :: rest =>
    ((c = ';' || c = '&' || c = '|') && spacesThen (litWordR ("rm".data)) rest)
      || chainRm rest

/-- Scans for `\|\s*sh\b|\|\s*bash\b`. -/
def pipeShell : Chars → Bool
  | [] => false
  | c :: rest =>
    (c = '|' && spacesThen (fun s => litWordR ("sh".data) s || litWordR ("bash".data) s) rest)
      || pipeShell rest

/-- Embeds the `dangerousPatterns` regex table of the config resolver as a
single disjunction, in source order: a command is dangerous iff some entry
matches it. -/
def matchesDangerousPatterns (s : Chars) : Bool :=
  containsWordThen ("rm".data) (dotStarThen dashRF) s
    || containsWordThen ("mv".data) (dotStarThen (fun t => ("../".data).isPrefixOf t)) s
    || containsWordThen ("cp".data) (dotStarThen (fun t => ("../".data).isPrefixOf t)) s
    || containsWordThen ("chmod".data) (dotStarThen (fun t => ("777".data).isPrefixOf t)) s
    || (containsWord ("su".data) s || containsWord ("sudo".data) s)
    || chainRm s
    || containsSub ("$(".data) s
    || (containsWord ("eval".data) s || containsWord ("exec".data) s)
    || s.contains '>'
    || s.contains '<'
    || pipeShell s

/-- Embeds `strings.Fields`: maximal runs of non-space characters. -/
def fieldsAux : Chars → Chars → List Chars
  | cur, [] => if cur = [] then [] else [cur.reverse]
  | cur, c :: rest =>
    if isGoSpace c then
      (if cur = [] then fieldsAux [] rest else cur.reverse :: fieldsAux [] rest)
    else fieldsAux (c :: cur) rest

/-- Embeds `strings.Fields`. -/
def goFields (s : Chars) : List Chars := fieldsAux [] s

/-- Embeds `strings.TrimSpace`. -/
def goTrimSpace (s : Chars) : Chars :=
  ((s.dropWhile isGoSpace).reverse.dropWhile isGoSpace).reverse

/-- The error cases of `validateCommand`, in source order. -/
inductive CommandError
  | substitutionDisabled
  | dangerousPattern
  | emptyCommand
  | notAllowlisted
deriving DecidableEq

/-- Embeds `validateCommand` of the shell variable resolver: substitution
must be enabled, no dangerous pattern may match, and the first
whitespace-delimited token must be in the allowlist. -/
def validateCommand (allowCommandSubstitution : Bool) (allowedCommands : List Chars)
    (command : Chars) : Except CommandError Unit :=
  if !allowCommandSubstitution then .error .substitutionDisabled
  else if matchesDangerousPatterns command then .error .dangerousPattern
  else
    match goFields (goTrimSpace command) with
    | [] => .error .emptyCommand
    | baseCommand :: _ =>
      if baseCommand ∈ allowedCommands then .ok () else .error .notAllowlisted

end Crush.Config

/-- C6: a command matching any dangerous-pattern regex is rejected by
`validateCommand` even when substitution is enabled and regardless of the
allowlist — the dangerous-pattern check runs before the allowlist check. -/
theorem validateCommand_dangerous_overrides_allowlist
    (allowed : List Crush.Chars) (command : Crush.Chars)
    (h : Crush.Config.matchesDangerousPatterns command = true) :
    Crush.Config.validateCommand true allowed command
      = .error .dangerousPattern := by
  simp [Crush.Config.validateCommand, h]

/-- Witness for C6: `echo ok; rm -rf /` matches the dangerous patterns and
is rejected although `echo` is allowlisted. -/
theorem validateCommand_dangerous_overrides_allowlist_witness :
    Crush.Config.matchesDangerousPatterns ("echo ok; rm -rf /".data) = true
    ∧ Crush.Config.validateCommand true ["echo".data] ("echo ok; rm -rf /".data)
        = .error .dangerousPattern := by
  constructor
  · decide
  · exact validateCommand_dangerous_overrides_allowlist ["echo".data]
      ("echo ok; rm -rf /".data) (by decide)

namespace Crush.Config

/-- The error cases of `ResolveValue`, in source order. `outOfFuel` is a
modelling artifact: the Go substitution loop rescans the whole string after
every replacement and therefore has no intrinsic bound on its iteration
count; the embedding makes the iteration budget explicit. -/
inductive ResolveError
  | invalidFormat
  | unmatchedCommandOpen
  | commandBlocked (e : CommandError)
  | execFailed
  | unmatchedVarOpen
  | incompleteVar
  | invalidVarStart
  | varNotSet (name : Chars)
  | outOfFuel
deriving DecidableEq

/-- Splits a string at the first occurrence of character `t`:
`some (pre, suf)` with the input equal to `pre ++ t :: suf` and `t ∉ pre`,
or `none` when `t` does not occur (Go's `strings.Index`). -/
def splitAtChar (t : Char) : Chars → Option (Chars × Chars)
  | [] => none
  | c :: rest =>
    if c = t then some ([], rest)
    else (splitAtChar t rest).map (fun p => (c :: p.1, p.2))

/-- Finds the first occurrence of `"$("` (Go's
`strings.Index(result, "$(")`), returning the text before it and the text
after the `"$("`. -/
def findDollarParen : Chars → Option (Chars × Chars)
  | [] => none
  | c :: rest =>
    if c = '$' ∧ rest.head? = some '(' then some ([], rest.tail)
    else (findDollarParen rest).map (fun p => (c :: p.1, p.2))

/-- Finds the matching close parenthesis with depth tracking, as the Go
scan from `start+2` does: returns the command text and the text after the
closing parenthesis. -/
def findClose (depth : ℕ) : Chars → Option (Chars × Chars)
  | [] => none
  | c :: rest =>
    if c = '(' then (findClose (depth + 1) rest).map (fun p => (c :: p.1, p.2))
    else if c = ')' then
      if depth = 0 then some ([], rest)
      else (findClose (depth - 1) rest).map (fun p => (c :: p.1, p.2))
    else (findClose depth rest).map (fun p => (c :: p.1, p.2))

/-- Embeds the command-substitution loop of `ResolveValue`: find `"$("`,
find its matching close parenthesis, validate and execute the command, and
splice the trimmed stdout in place of the span — then loop on the whole
updated string from the beginning, exactly as the source does. `shellExec`
models `shell.Exec` (`none` is an execution error); `fuel` bounds the
number of iterations. -/
def substCommands (shellExec : Chars → Option Chars) (allowSub : Bool)
    (allowed : List Chars) : ℕ → Chars → Except ResolveError Chars
  | 0, _ => .error .outOfFuel
  | fuel + 1, result =>
    match findDollarParen result with
    | none => .ok result
    | some (before, rest) =>
      match findClose 0 rest with
      | none => .error .unmatchedCommandOpen
      | some (command, after) =>
        match validateCommand allowSub allowed command with
        | .error e => .error (.commandBlocked e)
        | .ok () =>
          match shellExec command with
          | none => .error .execFailed
          | some stdout =>
            substCommands shellExec allowSub allowed fuel
              (before ++ goTrimSpace stdout ++ after)

/-- First character allowed in a `$VAR` name: letter or underscore. -/
def isVarStart (c : Char) : Bool := c = '_' || c.isAlpha

/-- Subsequent characters allowed in a `$VAR` name. -/
def isVarChar (c : Char) : Bool := c = '_' || c.isAlpha || c.isDigit

/-- Embeds the environment-variable loop of `ResolveValue`. `done` is the
already-scanned text before `searchStart`; `todo` is the text from
`searchStart` on. A replacement value is appended to `done`, mirroring
`searchStart = start + len(envValue)`. An environment lookup that yields
the empty string is a hard error, so an unset variable and one set to the
empty string are indistinguishable. -/
def envLoop (env : Chars → Chars) : ℕ → Chars → Chars → Except ResolveError Chars
  | 0, _, _ => .error .outOfFuel
  | fuel + 1, done, todo =>
    match splitAtChar '$' todo with
    | none => .ok (done ++ todo)
    | some (pre, after) =>
      match after with
      | [] => .error .incompleteVar
      | a :: rest =>
        if a = '(' then envLoop env fuel (done ++ pre ++ ['$']) (a :: rest)
        else if a = '{' then
          match splitAtChar '}' rest with
          | none => .error .unmatchedVarOpen
          | some (varName, suf) =>
            let envValue := env varName
            if envValue = [] then .error (.varNotSet varName)
            else envLoop env fuel (done ++ pre ++ envValue) suf
        else if !isVarStart a then .error .invalidVarStart
        else
          let varName := a :: rest.takeWhile isVarChar
          let suf := rest.dropWhile isVarChar
          let envValue := env varName
          if envValue = [] then .error (.varNotSet varName)
          else envLoop env fuel (done ++ pre ++ envValue) suf

/-- Embeds `shellVariableResolver.ResolveValue`: the lone-`$` special
case, the no-`$` fast path, then the command-substitution loop followed by
the environment-variable loop. -/
def ResolveValue (shellExec : Chars → Option Chars) (allowSub : Bool)
    (allowed : List Chars) (env : Chars → Chars) (fuel : ℕ)
    (value : Chars) : Except ResolveError Chars :=
  if value = ['$'] then .error .invalidFormat
  else if !value.contains '$' then .ok value
  else
    match substCommands shellExec allowSub allowed fuel value with
    | .error e => .error e
    | .ok r => envLoop env fuel [] r

/-- Embeds `environmentVariableResolver.ResolveValue`: values not starting
with `$` pass through; otherwise the rest of the value is a variable name
whose empty lookup is a hard error. -/
def environmentResolveValue (env : Chars → Chars) (value : Chars) :
    Except ResolveError Chars :=
  if ("$".data).isPrefixOf value then
    let varName := value.drop 1
    if env varName = [] then .error (.varNotSet varName) else .ok (env varName)
  else .ok value

theorem findDollarParen_of_no_dollar {s : Chars} (h : '$' ∉ s) :
    findDollarParen s = none := by
  induction s with
  | nil => rfl
  | cons c rest ih =>
    have hc : ¬(c = '$' ∧ rest.head? = some '(') := fun hh => h (by simp [hh.1])
    rw [findDollarParen, if_neg hc, ih (fun hm => h (by simp [hm]))]
    rfl

theorem findDollarParen_cons_not_paren {c : Char} {rest : Chars}
    (h : ¬(c = '$' ∧ rest.head? = some '(')) :
    findDollarParen (c :: rest) = (findDollarParen rest).map (fun p => (c :: p.1, p.2)) := by
  rw [findDollarParen, if_neg h]

theorem splitAtChar_first (t : Char) {pre : Chars} (suf : Chars) (h : t ∉ pre) :
    splitAtChar t (pre ++ t :: suf) = some (pre, suf) := by
  induction pre with
  | nil => simp [splitAtChar]
  | cons c rest ih =>
    have hc : c ≠ t := fun he => h (by simp [he])
    rw [List.cons_append, splitAtChar, if_neg hc,
      ih (fun hm => h (by simp [hm]))]
    rfl

theorem takeWhile_append_of (p : Char → Bool) {n suf : Chars}
    (h1 : ∀ x ∈ n, p x = true) (h2 : ∀ s t, suf = s :: t → p s = false) :
    (n ++ suf).takeWhile p = n ∧ (n ++ suf).dropWhile p = suf := by
  induction n with
  | nil =>
    cases hs : suf with
    | nil => simp
    | cons s t =>
      have := h2 s t hs
      simp [List.takeWhile, List.dropWhile, this]
  | cons c rest ih =>
    have hc : p c = true := h1 c (by simp)
    have ⟨ih1, ih2⟩ := ih (fun x hx => h1 x (by simp [hx]))
    simp [List.takeWhile, List.dropWhile, hc, ih1, ih2]

theorem substCommands_no_dollarparen {shellExec : Chars → Option Chars}
    {allowSub : Bool} {allowed : List Chars} {v : Chars} (fuel : ℕ)
    (h : findDollarParen v = none) :
    substCommands shellExec allowSub allowed (fuel + 1) v = .ok v := by
  rw [substCommands, h]

theorem findDollarParen_append {pre : Chars} (v : Chars) (h : '$' ∉ pre) :
    findDollarParen (pre ++ v) = (findDollarParen v).map (fun p => (pre ++ p.1, p.2)) := by
  induction pre with
  | nil => cases hfv : findDollarParen v <;> simp [hfv]
  | cons c rest ih =>
    have hc : ¬(c = '$' ∧ (rest ++ v).head? = some '(') := fun hh => h (by simp [hh.1])
    rw [List.cons_append, findDollarParen_cons_not_paren hc,
      ih (fun hm => h (by simp [hm]))]
    cases hfv : findDollarParen v <;> simp [hfv]

end Crush.Config

/-- C2: the command-substitution loop of `ResolveValue` rescans the whole
updated string from the beginning after each replacement, so command
output containing `"$("` is itself parsed and executed as a new
substitution. With a shell where `echo hi` prints `$(date)` and `date`
prints `resolved-date`, resolving `$(echo hi)` executes the injected
`date` command and returns `resolved-date`, not the literal `$(date)`
that resume-after-the-span scanning would leave in place. -/
theorem resolveValue_executes_injected_substitution :
    Crush.Config.ResolveValue
        (fun c => if c = "echo hi".data then some "$(date)".data
          else if c = "date".data then some "resolved-date".data else none)
        true ["echo".data, "date".data] (fun _ => []) 5 ("$(echo hi)".data)
      = .ok ("resolved-date".data)
    ∧ Crush.Config.ResolveValue
        (fun c => if c = "echo hi".data then some "$(date)".data
          else if c = "date".data then some "resolved-date".data else none)
        true ["echo".data, "date".data] (fun _ => []) 5 ("$(echo hi)".data)
      ≠ .ok ("$(date)".data) := by
  constructor <;> decide

/-- C10: the resolvers see the environment only through Go's `env.Get`,
which returns the empty string for unset variables, so an unset variable
and one set to `""` are the same input; whenever the lookup for a reached
`$VAR` or `$\x7bVAR\x7d` reference yields the empty string, `ResolveValue`
fails with the "not set" error, so a reference never resolves to the empty
string. Stated for the plain environment resolver and, for the shell
resolver, for the first reference of the value (`pre` before it free of
`$`, no command substitution present). -/
theorem resolveValue_empty_lookup_errors :
    (∀ (env : Crush.Chars → Crush.Chars) (value : Crush.Chars),
        ("$".data).isPrefixOf value = true → env (value.drop 1) = [] →
        Crush.Config.environmentResolveValue env value
          = .error (.varNotSet (value.drop 1)))
    ∧ (∀ (shellExec : Crush.Chars → Option Crush.Chars) (allowSub : Bool)
        (allowed : List Crush.Chars) (env : Crush.Chars → Crush.Chars)
        (fuel : ℕ) (pre name suf : Crush.Chars),
        '$' ∉ pre → '$' ∉ name → '}' ∉ name → '$' ∉ suf →
        env name = [] →
        Crush.Config.ResolveValue shellExec allowSub allowed env (fuel + 1)
            (pre ++ '$' :: '{' :: (name ++ '}' :: suf))
          = .error (.varNotSet name))
    ∧ (∀ (shellExec : Crush.Chars → Option Crush.Chars) (allowSub : Bool)
        (allowed : List Crush.Chars) (env : Crush.Chars → Crush.Chars)
        (fuel : ℕ) (pre : Crush.Chars) (c : Char) (nrest suf : Crush.Chars),
        '$' ∉ pre → Crush.Config.isVarStart c = true →
        (∀ x ∈ nrest, Crush.Config.isVarChar x = true) →
        (∀ s t, suf = s :: t → Crush.Config.isVarChar s = false) →
        '$' ∉ suf → env (c :: nrest) = [] →
        Crush.Config.ResolveValue shellExec allowSub allowed env (fuel + 1)
            (pre ++ '$' :: c :: (nrest ++ suf))
          = .error (.varNotSet (c :: nrest))) := by
  refine ⟨?_, ?_, ?_⟩
  · intro env value hpfx henv
    rw [Crush.Config.environmentResolveValue, if_pos hpfx]
    simp only [List.drop_one] at henv ⊢
    simp [henv]
  · intro shellExec allowSub allowed env fuel pre name suf hpre hname hbrace hsuf henv
    have hnodollar : '$' ∉ ('{' :: (name ++ '}' :: suf)) := by
      intro hm
      simp only [List.mem_cons, List.mem_append] at hm
      rcases hm with h | h | h | h
      · exact absurd h (by decide)
      · exact hname h
      · exact absurd h (by decide)
      · exact hsuf h
    have hfdp : Crush.Config.findDollarParen
        (pre ++ '$' :: '{' :: (name ++ '}' :: suf)) = none := by
      rw [Crush.Config.findDollarParen_append _ hpre,
        Crush.Config.findDollarParen_cons_not_paren (by simp),
        Crush.Config.findDollarParen_of_no_dollar hnodollar]
      rfl
    have hlen : pre ++ '$' :: '{' :: (name ++ '}' :: suf) ≠ ['$'] := by
      intro he
      have := congrArg List.length he
      simp [List.length_append] at this
      omega
    have hcontains : (pre ++ '$' :: '{' :: (name ++ '}' :: suf)).contains '$' = true :=
      List.elem_eq_true_of_mem (by simp)
    rw [Crush.Config.ResolveValue, if_neg hlen, hcontains]
    simp only [Bool.not_true, Bool.false_eq_true, if_false]
    rw [Crush.Config.substCommands_no_dollarparen fuel hfdp]
    simp only [Crush.Config.envLoop]
    rw [Crush.Config.splitAtChar_first '$' _ hpre]
    simp only [if_neg (by decide : ¬('{' : Char) = '('), if_pos rfl]
    rw [Crush.Config.splitAtChar_first '}' suf hbrace]
    simp [henv]
  · intro shellExec allowSub allowed env fuel pre c nrest suf hpre hstart hall hsufhead hsufd henv
    have hcd : c ≠ '$' := by
      intro he; rw [he] at hstart; exact absurd hstart (by decide)
    have hcp : c ≠ '(' := by
      intro he; rw [he] at hstart; exact absurd hstart (by decide)
    have hcb : c ≠ '{' := by
      intro he; rw [he] at hstart; exact absurd hstart (by decide)
    have hnodollar : '$' ∉ (c :: (nrest ++ suf)) := by
      intro hm
      simp only [List.mem_cons, List.mem_append] at hm
      rcases hm with h | h | h
      · exact hcd h.symm
      · exact absurd (hall '$' h) (by decide)
      · exact hsufd h
    have hfdp : Crush.Config.findDollarParen
        (pre ++ '$' :: c :: (nrest ++ suf)) = none := by
      rw [Crush.Config.findDollarParen_append _ hpre,
        Crush.Config.findDollarParen_cons_not_paren
          (by simp [hcp] : ¬(('$' : Char) = '$' ∧ (c :: (nrest ++ suf)).head? = some '(')),
        Crush.Config.findDollarParen_of_no_dollar hnodollar]
      rfl
    have hlen : pre ++ '$' :: c :: (nrest ++ suf) ≠ ['$'] := by
      intro he
      have := congrArg List.length he
      simp [List.length_append] at this
      omega
    have hcontains : (pre ++ '$' :: c :: (nrest ++ suf)).contains '$' = true :=
      List.elem_eq_true_of_mem (by simp)
    obtain ⟨htw, hdw⟩ := Crush.Config.takeWhile_append_of Crush.Config.isVarChar hall hsufhead
    rw [Crush.Config.ResolveValue, if_neg hlen, hcontains]
    simp only [Bool.not_true, Bool.false_eq_true, if_false]
    rw [Crush.Config.substCommands_no_dollarparen fuel hfdp]
    simp only [Crush.Config.envLoop]
    rw [Crush.Config.splitAtChar_first '$' _ hpre]
    simp only [if_neg hcp, if_neg hcb, hstart, Bool.not_true, Bool.false_eq_true, if_false,
      htw, hdw]
    simp [henv]

/-- Witness for C10 at concrete inputs: references to `HOME` under an
environment in which every lookup yields the empty string. -/
theorem resolveValue_empty_lookup_errors_witness :
    Crush.Config.environmentResolveValue (fun _ => []) ("$HOME".data)
        = .error (.varNotSet ("HOME".data))
    ∧ Crush.Config.ResolveValue (fun _ => none) false [] (fun _ => []) 3
        ("a $\x7bHOME\x7d b".data) = .error (.varNotSet ("HOME".data))
    ∧ Crush.Config.ResolveValue (fun _ => none) false [] (fun _ => []) 3
        ("a $HOME:b".data) = .error (.varNotSet ("HOME".data)) := by
  refine ⟨?_, ?_, ?_⟩
  · exact resolveValue_empty_lookup_errors.1 (fun _ => []) ("$HOME".data) (by decide) rfl
  · exact resolveValue_empty_lookup_errors.2.1 (fun _ => none) false [] (fun _ => []) 2
      ("a ".data) ("HOME".data) (" b".data) (by decide) (by decide) (by decide) (by decide) rfl
  · exact resolveValue_empty_lookup_errors.2.2 (fun _ => none) false [] (fun _ => []) 2
      ("a ".data) 'H' ("OME".data) (":b".data) (by decide) (by decide) (by decide)
      (by intro s t h; injection h with h1 _; rw [← h1]; decide) (by decide) rfl

namespace Crush.Agent

/-- Embeds the typed message parts of `internal/message` that the agent
code inspects: text content, tool calls (name and input) and tool results
(content). -/
inductive ContentPart
  | text (text : String)
  | toolCall (name input : String)
  | toolResult (toolCallID content : String) (isError : Bool)
deriving DecidableEq

/-- Embeds `message.Message`: a role and an ordered list of parts. -/
structure Message where
  role : String
  parts : List ContentPart
deriving DecidableEq

/-- Embeds `provider.TokenUsage` (only the fields the cache and cost
estimator touch). -/
structure TokenUsage where
  inputTokens : ℤ
  outputTokens : ℤ
deriving DecidableEq

/-- Embeds `generateCacheKey`: the sha256 hash over the model ID, each
message's role and each text part, in order. The hash is modelled as the
identity fingerprint on the hashed byte stream (collisions of sha256 are
outside the model). -/
def generateCacheKey (messages : List Message) (modelID : String) : String :=
  modelID ++ String.join (messages.map (fun msg =>
    msg.role ++ String.join (msg.parts.filterMap (fun part =>
      match part with
      | .text t => some t
      | _ => none))))

/-- Embeds `CacheEntry`; `time.Time` is a natural-number instant. -/
structure CacheEntry where
  response : Message
  tokenUsage : TokenUsage
  timestamp : ℕ
  ttl : ℕ
deriving DecidableEq

/-- Embeds `CacheEntry.IsExpired`: `time.Since(timestamp) > ttl` at the
instant `now`. -/
def CacheEntry.IsExpired (e : CacheEntry) (now : ℕ) : Bool := e.ttl < now - e.timestamp

/-- Embeds `ResponseCache`; the Go map is an association list with unique
keys (bindings replaced on insert). -/
structure ResponseCache where
  cache : List (String × CacheEntry)
  enabled : Bool
  defaultTTL : ℕ
  maxSize : ℕ
deriving DecidableEq

/-- Removes a key's binding (`delete(rc.cache, key)`). -/
def mapDelete (m : List (String × CacheEntry)) (k : String) : List (String × CacheEntry) :=
  m.filter (fun p => !(p.1 == k))

/-- Embeds `evictOldest`: drop the entry with the strictly oldest
timestamp, earlier bindings winning ties, as one admissible iteration
order of the Go map. -/
def evictOldest (m : List (String × CacheEntry)) : List (String × CacheEntry) :=
  match m.foldl (fun acc p =>
    match acc with
    | none => some p
    | some q => if p.2.timestamp < q.2.timestamp then some p else some q) none with
  | none => m
  | some oldest => mapDelete m oldest.1

/-- Embeds `ResponseCache.Get` at instant `now`: a disabled cache and a
missing key miss; an expired entry is deleted and misses; otherwise the
entry is returned with a hit. Returns the possibly-updated cache state
alongside the Go return values. -/
def ResponseCache.Get (rc : ResponseCache) (now : ℕ) (messages : List Message)
    (modelID : String) : Option CacheEntry × Bool × ResponseCache :=
  if !rc.enabled then (none, false, rc)
  else
    let key := generateCacheKey messages modelID
    match rc.cache.lookup key with
    | none => (none, false, rc)
    | some entry =>
      if entry.IsExpired now then (none, false, { rc with cache := mapDelete rc.cache key })
      else (some entry, true, rc)

/-- Embeds `ResponseCache.Set` at instant `now`: a disabled cache is
unchanged; at capacity the oldest entry is evicted first; then the new
entry (timestamped `now`, with the default TTL) is stored under the
request's key. -/
def ResponseCache.Set (rc : ResponseCache) (now : ℕ) (messages : List Message)
    (modelID : String) (response : Message) (usage : TokenUsage) : ResponseCache :=
  if !rc.enabled then rc
  else
    let key := generateCacheKey messages modelID
    let cache := if rc.cache.length ≥ rc.maxSize then evictOldest rc.cache else rc.cache
    { rc with cache := (key, ⟨response, usage, now, rc.defaultTTL⟩) :: mapDelete cache key }

theorem lookup_mapDelete (m : List (String × CacheEntry)) (k : String) :
    (mapDelete m k).lookup k = none := by
  induction m with
  | nil => rfl
  | cons p rest ih =>
    obtain ⟨k', v⟩ := p
    by_cases h : k' = k
    · simpa [mapDelete, h] using ih
    · have hb : (k == k') = false := beq_eq_false_iff_ne.mpr (Ne.symm h)
      have hb2 : (k' == k) = false := beq_eq_false_iff_ne.mpr h
      simp only [mapDelete, List.filter_cons, hb2, Bool.not_false, if_pos rfl] at ih ⊢
      simpa [List.lookup, hb] using ih

end Crush.Agent

/-- C7: for an enabled cache, `Set` followed by `Get` with the same
(transcript, modelID) returns the stored response with a hit while the
entry's age does not exceed the TTL, and returns a miss with the entry
evicted once the age exceeds the TTL. -/
theorem cache_set_then_get (rc : Crush.Agent.ResponseCache)
    (messages : List Crush.Agent.Message) (modelID : String)
    (response : Crush.Agent.Message) (usage : Crush.Agent.TokenUsage)
    (t0 now : ℕ) (hen : rc.enabled = true) :
    (now - t0 ≤ rc.defaultTTL →
      (rc.Set t0 messages modelID response usage).Get now messages modelID
        = (some ⟨response, usage, t0, rc.defaultTTL⟩, true,
            rc.Set t0 messages modelID response usage))
    ∧ (rc.defaultTTL < now - t0 →
      ((rc.Set t0 messages modelID response usage).Get now messages modelID).1 = none
      ∧ ((rc.Set t0 messages modelID response usage).Get now messages modelID).2.1 = false
      ∧ (((rc.Set t0 messages modelID response usage).Get now messages
            modelID).2.2.cache.lookup
          (Crush.Agent.generateCacheKey messages modelID)) = none) := by
  have hset : rc.Set t0 messages modelID response usage
      = { rc with cache := ((Crush.Agent.generateCacheKey messages modelID,
          (⟨response, usage, t0, rc.defaultTTL⟩ : Crush.Agent.CacheEntry)) ::
          (Crush.Agent.mapDelete
            (if rc.cache.length ≥ rc.maxSize then Crush.Agent.evictOldest rc.cache
              else rc.cache)
            (Crush.Agent.generateCacheKey messages modelID))) } := by
    simp [Crush.Agent.ResponseCache.Set, hen]
  constructor
  · intro hfresh
    have hexp : (⟨response, usage, t0, rc.defaultTTL⟩ :
        Crush.Agent.CacheEntry).IsExpired now = false := by
      simp only [Crush.Agent.CacheEntry.IsExpired, decide_eq_false_iff_not, not_lt]
      exact hfresh
    rw [hset]
    simp [Crush.Agent.ResponseCache.Get, hen, List.lookup, hexp]
  · intro hstale
    have hexp : (⟨response, usage, t0, rc.defaultTTL⟩ :
        Crush.Agent.CacheEntry).IsExpired now = true := by
      simp only [Crush.Agent.CacheEntry.IsExpired, decide_eq_true_eq]
      exact hstale
    rw [hset]
    refine ⟨?_, ?_, ?_⟩ <;>
      simp [Crush.Agent.ResponseCache.Get, hen, List.lookup, hexp,
        Crush.Agent.lookup_mapDelete]

/-- Witness for C7: a two-slot cache with TTL 10; an entry stored at
instant 0 hits at instant 5 and misses (and is evicted) at instant 11. -/
theorem cache_set_then_get_witness :
    (⟨[], true, 10, 2⟩ : Crush.Agent.ResponseCache).enabled = true
    ∧ ((⟨[], true, 10, 2⟩ : Crush.Agent.ResponseCache).Set 0
          [⟨"user", [.text "hi"]⟩] "m" ⟨"assistant", [.text "hello"]⟩ ⟨3, 4⟩).Get 5
          [⟨"user", [.text "hi"]⟩] "m"
        = (some ⟨⟨"assistant", [.text "hello"]⟩, ⟨3, 4⟩, 0, 10⟩, true,
            (⟨[], true, 10, 2⟩ : Crush.Agent.ResponseCache).Set 0
              [⟨"user", [.text "hi"]⟩] "m" ⟨"assistant", [.text "hello"]⟩ ⟨3, 4⟩)
    ∧ (((⟨[], true, 10, 2⟩ : Crush.Agent.ResponseCache).Set 0
          [⟨"user", [.text "hi"]⟩] "m" ⟨"assistant", [.text "hello"]⟩ ⟨3, 4⟩).Get 11
          [⟨"user", [.text "hi"]⟩] "m").1 = none := by
  refine ⟨rfl, ?_, ?_⟩
  · exact (cache_set_then_get ⟨[], true, 10, 2⟩ [⟨"user", [.text "hi"]⟩] "m"
      ⟨"assistant", [.text "hello"]⟩ ⟨3, 4⟩ 0 5 rfl).1 (by norm_num)
  · exact ((cache_set_then_get ⟨[], true, 10, 2⟩ [⟨"user", [.text "hi"]⟩] "m"
      ⟨"assistant", [.text "hello"]⟩ ⟨3, 4⟩ 0 11 rfl).2 (by norm_num)).1

namespace Crush.Agent

/-- Embeds the model metadata consumed by `EstimateRequestCost`
(`catwalk.Model`): default max tokens and per-million prices, with
`float64` prices as exact rationals. -/
structure Model where
  id : String
  defaultMaxTokens : ℕ
  costPer1MIn : ℚ
  costPer1MOut : ℚ

/-- Embeds `estimateTextTokens`: `int(words × 1.3 + chars × 0.25)` where
`words` counts whitespace-separated fields and `chars` is the byte length;
the `int` conversion truncates, which equals the floor on these
non-negative values. -/
def estimateTextTokens (text : String) : ℤ :=
  let words : ℤ := (Crush.Config.goFields text.data).length
  let chars : ℤ := text.utf8ByteSize
  ⌊(words : ℚ) * (13 / 10) + (chars : ℚ) * (1 / 4)⌋

/-- Embeds `countTokensInMessages`: 4 base tokens per message plus the
text estimate of every text block, tool-call name and input, and
tool-result content. -/
def countTokensInMessages (messages : List Message) : ℤ :=
  messages.foldl (fun total msg =>
    msg.parts.foldl (fun t part =>
      match part with
      | .text text => t + estimateTextTokens text
      | .toolCall name input => t + estimateTextTokens name + estimateTextTokens input
      | .toolResult _ content _ => t + estimateTextTokens content) (total + 4)) 0

/-- Embeds `EstimateRequestCost`: estimated usage and cost
`costPer1MIn/1e6 × inputTokens + costPer1MOut/1e6 × outputTokens`, with
`maxTokens` used as the output estimate when nonzero and half the model's
default maximum otherwise. -/
def EstimateRequestCost (messages : List Message) (model : Model) (maxTokens : ℕ) :
    TokenUsage × ℚ :=
  let inputTokens := countTokensInMessages messages
  let outputTokens : ℕ := if maxTokens = 0 then model.defaultMaxTokens / 2 else maxTokens
  let usage : TokenUsage := ⟨inputTokens, outputTokens⟩
  let cost := model.costPer1MIn / 1000000 * (usage.inputTokens : ℚ)
    + model.costPer1MOut / 1000000 * (usage.outputTokens : ℚ)
  (usage, cost)

/-- Embeds `CostEstimator.ShouldProceed`: block when the estimated cost
strictly exceeds the configured ceiling. -/
def ShouldProceed (maxCostThreshold : ℚ) (estimatedCost : ℚ) : Bool × String :=
  if estimatedCost > maxCostThreshold then (false, "Estimated cost exceeds threshold")
  else (true, "")

/-- The token estimate of a single message part, as `countTokensInMessages`
accumulates it. -/
def partTokens : ContentPart → ℤ
  | .text text => estimateTextTokens text
  | .toolCall name input => estimateTextTokens name + estimateTextTokens input
  | .toolResult _ content _ => estimateTextTokens content

/-- Input-token count as the specification words it for C8: a fixed
4-token overhead per message plus, per *text block* only, the
words/chars estimate. Written from the spec's sentence, to be compared
with the source's `countTokensInMessages`. -/
def specInputTokensTextOnly (messages : List Message) : ℤ :=
  (messages.map (fun msg => 4 + ((msg.parts.map (fun part =>
    match part with
    | .text t => estimateTextTokens t
    | _ => 0)).sum))).sum

/-- Input-token count as the amended specification words it: a fixed
4-token overhead per message plus the words/chars estimate of every text
payload (text blocks, tool-call names and inputs, tool-result contents). -/
def specInputTokensAllParts (messages : List Message) : ℤ :=
  (messages.map (fun msg => 4 + (msg.parts.map partTokens).sum)).sum

theorem foldl_add_eq {α : Type} (f : α → ℤ) :
    ∀ (l : List α) (a : ℤ), l.foldl (fun t x => t + f x) a = a + (l.map f).sum := by
  intro l
  induction l with
  | nil => intro a; simp
  | cons x rest ih =>
    intro a
    simp only [List.foldl_cons, List.map_cons, List.sum_cons, ih]
    ring

theorem countTokensInMessages_eq_spec (messages : List Message) :
    countTokensInMessages messages = specInputTokensAllParts messages := by
  have hstep : ∀ (l : List ContentPart) (a : ℤ),
      l.foldl (fun t part =>
        match part with
        | .text text => t + estimateTextTokens text
        | .toolCall name input => t + estimateTextTokens name + estimateTextTokens input
        | .toolResult _ content _ => t + estimateTextTokens content) a
      = a + (l.map partTokens).sum := by
    have hfun : (fun (t : ℤ) (part : ContentPart) =>
        match part with
        | .text text => t + estimateTextTokens text
        | .toolCall name input => t + estimateTextTokens name + estimateTextTokens input
        | .toolResult _ content _ => t + estimateTextTokens content)
        = fun t part => t + partTokens part := by
      funext t part
      cases part with
      | text text => simp [partTokens]
      | toolCall name input => simp [partTokens]; ring
      | toolResult id content isError => simp [partTokens]
    rw [hfun]
    exact foldl_add_eq partTokens
  have hfun2 : (fun (total : ℤ) (msg : Message) =>
      msg.parts.foldl (fun t part =>
        match part with
        | .text text => t + estimateTextTokens text
        | .toolCall name input => t + estimateTextTokens name + estimateTextTokens input
        | .toolResult _ content _ => t + estimateTextTokens content) (total + 4))
      = fun (total : ℤ) msg => total + (4 + (msg.parts.map partTokens).sum) := by
    funext total msg
    rw [hstep]
    ring
  rw [countTokensInMessages, hfun2]
  exact (foldl_add_eq (fun (msg : Message) => 4 + (msg.parts.map partTokens).sum)
    messages 0).trans (by simp [specInputTokensAllParts])

end Crush.Agent

/-- C8 counterexample: for a transcript whose only part is a tool call,
`EstimateRequestCost` returns 8 input tokens (the tool-call name and input
are estimated too), while the claim's text-block-only formula gives just
the 4-token overhead. -/
theorem estimateRequestCost_counts_tool_parts :
    (Crush.Agent.EstimateRequestCost [⟨"assistant", [.toolCall "grep" "abc"]⟩]
        ⟨"m", 1000, 5, 15⟩ 256).1.inputTokens = 8
    ∧ Crush.Agent.specInputTokensTextOnly [⟨"assistant", [.toolCall "grep" "abc"]⟩] = 4
    ∧ (Crush.Agent.EstimateRequestCost [⟨"assistant", [.toolCall "grep" "abc"]⟩]
        ⟨"m", 1000, 5, 15⟩ 256).1.inputTokens
      ≠ Crush.Agent.specInputTokensTextOnly [⟨"assistant", [.toolCall "grep" "abc"]⟩] := by
  have hg : Crush.Agent.estimateTextTokens "grep" = 2 := by
    have h1 : ((Crush.Config.goFields ("grep".data)).length : ℤ) = 1 := by decide
    have h2 : (("grep" : String).utf8ByteSize : ℤ) = 4 := by decide
    rw [Crush.Agent.estimateTextTokens, h1, h2]
    norm_num
  have ha : Crush.Agent.estimateTextTokens "abc" = 2 := by
    have h1 : ((Crush.Config.goFields ("abc".data)).length : ℤ) = 1 := by decide
    have h2 : (("abc" : String).utf8ByteSize : ℤ) = 3 := by decide
    rw [Crush.Agent.estimateTextTokens, h1, h2]
    norm_num
  refine ⟨?_, ?_, ?_⟩
  · simp [Crush.Agent.EstimateRequestCost, Crush.Agent.countTokensInMessages, hg, ha]
  · simp [Crush.Agent.specInputTokensTextOnly]
  · simp [Crush.Agent.EstimateRequestCost, Crush.Agent.countTokensInMessages,
      Crush.Agent.specInputTokensTextOnly, hg, ha]

/-- C8 (amended): `EstimateRequestCost` returns input tokens equal to the
sum over messages of the 4-token overhead plus the words × 1.3 + chars ×
0.25 estimate (truncated) of every text payload — text blocks, tool-call
names and inputs, and tool-result contents; output tokens equal to
`maxTokens` when nonzero and half the model's default maximum otherwise;
a cost of inputTokens × pricePerMillionIn/1e6 + outputTokens ×
pricePerMillionOut/1e6; and `ShouldProceed` returns false for every
ceiling strictly below that cost. -/
theorem estimateRequestCost_formula (messages : List Crush.Agent.Message)
    (model : Crush.Agent.Model) (maxTokens : ℕ) :
    (Crush.Agent.EstimateRequestCost messages model maxTokens).1.inputTokens
        = Crush.Agent.specInputTokensAllParts messages
    ∧ (Crush.Agent.EstimateRequestCost messages model maxTokens).1.outputTokens
        = ((if maxTokens = 0 then model.defaultMaxTokens / 2 else maxTokens : ℕ) : ℤ)
    ∧ (Crush.Agent.EstimateRequestCost messages model maxTokens).2
        = ((Crush.Agent.EstimateRequestCost messages model maxTokens).1.inputTokens : ℚ)
            * model.costPer1MIn / 1000000
          + ((Crush.Agent.EstimateRequestCost messages model maxTokens).1.outputTokens : ℚ)
            * model.costPer1MOut / 1000000
    ∧ ∀ ceiling : ℚ,
        ceiling < (Crush.Agent.EstimateRequestCost messages model maxTokens).2 →
        (Crush.Agent.ShouldProceed ceiling
          (Crush.Agent.EstimateRequestCost messages model maxTokens).2).1 = false := by
  refine ⟨?_, ?_, ?_, ?_⟩
  · simpa [Crush.Agent.EstimateRequestCost]
      using Crush.Agent.countTokensInMessages_eq_spec messages
  · simp [Crush.Agent.EstimateRequestCost]
  · simp only [Crush.Agent.EstimateRequestCost]
    ring
  · intro ceiling hc
    simp [Crush.Agent.ShouldProceed, hc]

/-- Witness for C8 at a concrete transcript: `hello world` with $5/$15
per-million pricing and `maxTokens = 256`; the cost is 0.003885, so a
ceiling of $0.0001 makes `ShouldProceed` refuse. -/
theorem estimateRequestCost_formula_witness :
    (1 : ℚ) / 10000 < (Crush.Agent.EstimateRequestCost
        [⟨"user", [.text "hello world"]⟩] ⟨"m", 0, 5, 15⟩ 256).2
    ∧ (Crush.Agent.ShouldProceed ((1 : ℚ) / 10000)
        (Crush.Agent.EstimateRequestCost
          [⟨"user", [.text "hello world"]⟩] ⟨"m", 0, 5, 15⟩ 256).2).1 = false := by
  have hw : Crush.Agent.estimateTextTokens "hello world" = 5 := by
    have h1 : ((Crush.Config.goFields ("hello world".data)).length : ℤ) = 2 := by decide
    have h2 : (("hello world" : String).utf8ByteSize : ℤ) = 11 := by decide
    rw [Crush.Agent.estimateTextTokens, h1, h2]
    norm_num
  have hcost : (Crush.Agent.EstimateRequestCost
      [⟨"user", [.text "hello world"]⟩] ⟨"m", 0, 5, 15⟩ 256).2 = 777 / 200000 := by
    simp [Crush.Agent.EstimateRequestCost, Crush.Agent.countTokensInMessages, hw]
    norm_num
  have hlt : (1 : ℚ) / 10000 < (Crush.Agent.EstimateRequestCost
      [⟨"user", [.text "hello world"]⟩] ⟨"m", 0, 5, 15⟩ 256).2 := by
    rw [hcost]; norm_num
  exact ⟨hlt, (estimateRequestCost_formula [⟨"user", [.text "hello world"]⟩]
    ⟨"m", 0, 5, 15⟩ 256).2.2.2 (1 / 10000) hlt⟩

namespace Crush.Feedback

open Crush Crush.Agent Crush.Config

/-- ASCII lowercasing of a text, embedding `strings.ToLower` (the
indicator phrases below are all ASCII, for which the two agree). -/
def toLowerText (s : Chars) : Chars := s.map Char.toLower

/-- Embeds `strings.Count` for a nonempty pattern: the number of
non-overlapping occurrences, left to right. -/
def countOccur (pat : Chars) : Chars → ℕ
  | [] => 0
  | c :: rest =>
    if pat.isPrefixOf (c :: rest) ∧ pat ≠ [] then
      1 + countOccur pat (rest.drop (pat.length - 1))
    else countOccur pat rest
termination_by s => s.length
decreasing_by
  · simp only [List.length_cons, List.length_drop]
    omega
  · simp only [List.length_cons]
    omega

/-- Embeds `strings.Split` on a single-character separator. -/
def splitOnChar (t : Char) : Chars → List Chars
  | [] => [[]]
  | c :: rest =>
    if c = t then [] :: splitOnChar t rest
    else
      match splitOnChar t rest with
      | [] => [[c]]
      | g :: gs => (c :: g) :: gs

/-- Embeds `extractTextContent`: the text parts joined with newlines. -/
def extractTextContent (msg : Message) : String :=
  String.intercalate "\n" (msg.parts.filterMap (fun part =>
    match part with
    | .text t => some t
    | _ => none))

/-- The `incompleteIndicators` table of `calculateCompleteness`. -/
def incompleteIndicators : List Chars :=
  ["i need more information".data, "could you clarify".data, "incomplete".data,
   "not enough context".data, "unable to determine".data]

/-- Embeds `calculateCompleteness`: a length-ratio heuristic plus
detection of "needs more information" phrasing. -/
def calculateCompleteness (userText responseText : String) : ℚ :=
  if responseText = "" then 0
  else
    let userWords := (goFields userText.data).length
    let responseWords := (goFields responseText.data).length
    if userWords > 0 ∧ ((responseWords : ℚ) / (userWords : ℚ) < 1 / 2) then 3 / 10
    else if userWords > 0 ∧ ((responseWords : ℚ) / (userWords : ℚ) > 10) then 7 / 10
    else
      let lower := toLowerText responseText.data
      if incompleteIndicators.any (fun ind => containsSub ind lower) then 4 / 10
      else 8 / 10

/-- The `clarityIndicators` table of `calculateClarity`. -/
def clarityIndicators : List Chars :=
  ["first".data, "second".data, "then".data, "next".data, "finally".data,
   "however".data, "therefore".data, "because".data, "since".data]

/-- Embeds `calculateClarity`: penalizes a long average sentence length
and rewards structural connectives, capped at 1. -/
def calculateClarity (responseText : String) : ℚ :=
  if responseText = "" then 0
  else
    let words := (goFields responseText.data).length
    let sentences := (splitOnChar '.' responseText.data).length
    let avgSentenceLength : ℚ := (words : ℚ) / (sentences : ℚ)
    let clarityScore : ℚ := if avgSentenceLength > 25 then 8 / 10 - 2 / 10 else 8 / 10
    let lower := toLowerText responseText.data
    let indicatorCount := (clarityIndicators.filter
      (fun ind => containsSub ind lower)).length
    let clarityScore := if indicatorCount > 2 then clarityScore + 1 / 10 else clarityScore
    min clarityScore 1

/-- Embeds `calculateRelevance`: duplicate-counting keyword overlap of
words longer than 3 characters, over the number of distinct such user
words, capped at 1; 0.5 when the user set is empty. -/
def calculateRelevance (userText responseText : String) : ℚ :=
  if responseText = "" then 0
  else
    let userWords := goFields (toLowerText userText.data)
    let responseWords := goFields (toLowerText responseText.data)
    let userWordSet := (userWords.filter (fun w => decide (w.length > 3))).dedup
    let overlap := (responseWords.filter
      (fun w => decide (w.length > 3 ∧ w ∈ userWordSet))).length
    if userWordSet.length = 0 then 1 / 2
    else min ((overlap : ℚ) / (userWordSet.length : ℚ)) 1

/-- The `vagueTerms` table of `calculateSpecificity`. -/
def vagueTerms : List Chars :=
  ["maybe".data, "perhaps".data, "might".data, "could be".data, "possibly".data,
   "generally".data, "usually".data, "often".data, "sometimes".data,
   "it depends".data, "varies".data, "different".data]

/-- The `specificIndicators` table of `calculateSpecificity`. -/
def specificIndicators : List Chars :=
  ["step 1".data, "step 2".data, "specifically".data, "exactly".data,
   "run the following".data, "execute".data, "use this command".data,
   "set to".data, "configure".data, "install".data]

/-- Embeds `calculateSpecificity`: penalizes vague qualifiers (counted
with multiplicity), rewards concrete action phrases, clamped to [0,1]. -/
def calculateSpecificity (responseText : String) : ℚ :=
  if responseText = "" then 0
  else
    let lower := toLowerText responseText.data
    let vaguenessCount := (vagueTerms.map (fun t => countOccur t lower)).sum
    let specificityCount := (specificIndicators.filter
      (fun ind => containsSub ind lower)).length
    let s : ℚ := 1 / 2
    let s := if vaguenessCount > 3 then s - 3 / 10 else s
    let s := if specificityCount > 0 then s + 3 / 10 else s
    max 0 (min s 1)

/-- The `errorIndicators` table of `detectErrorIndicators`. -/
def errorIndicators : List Chars :=
  ["i apologize, but".data, "i\x27m sorry, i can\x27t".data, "error".data,
   "failed".data, "unable to".data, "not possible".data,
   "doesn\x27t exist".data, "not found".data, "invalid".data]

/-- Embeds `detectErrorIndicators`: 1.0 minus 0.2 per distinct error
phrase found, floored at 0. -/
def detectErrorIndicators (responseText : String) : ℚ :=
  let lower := toLowerText responseText.data
  let errorCount := (errorIndicators.filter (fun ind => containsSub ind lower)).length
  max 0 (1 - (errorCount : ℚ) * (2 / 10))

/-- The `weights` map of `calculateOverallScore`. -/
def metricWeights : List (String × ℚ) :=
  [("completeness", 3 / 10), ("clarity", 2 / 10), ("relevance", 25 / 100),
   ("specificity", 15 / 100), ("error_indicators", 1 / 10)]

/-- Embeds `calculateOverallScore`: the weight-masked sum of the metrics
divided by the total weight of the recognized ones (0.5 when no metric is
recognized); the Go map iteration is modelled by the metric list's order,
which the commutative sums make irrelevant. -/
def calculateOverallScore (metrics : List (String × ℚ)) : ℚ :=
  let totals := metrics.foldl (fun acc m =>
    match metricWeights.lookup m.1 with
    | some w => (acc.1 + m.2 * w, acc.2 + w)
    | none => acc) ((0 : ℚ), (0 : ℚ))
  if totals.2 = 0 then 1 / 2 else totals.1 / totals.2

/-- Embeds `calculateMetricsVariance`. -/
def calculateMetricsVariance (metrics : List (String × ℚ)) : ℚ :=
  if metrics.length = 0 then 0
  else
    let mean := (metrics.map (·.2)).sum / (metrics.length : ℚ)
    ((metrics.map (fun m => (m.2 - mean) * (m.2 - mean))).sum) / (metrics.length : ℚ)

/-- Embeds `calculateConfidence`: rises with response length, falls with
metric variance, clamped to [0.1, 0.9]. -/
def calculateConfidence (metrics : List (String × ℚ)) (responseText : String) : ℚ :=
  let wordCount := (goFields responseText.data).length
  let c : ℚ := 1 / 2
  let c := if wordCount > 50 then c + 2 / 10 else c
  let c := if wordCount > 200 then c + 1 / 10 else c
  let c := if calculateMetricsVariance metrics > 3 / 10 then c - 2 / 10 else c
  max (1 / 10) (min c (9 / 10))

/-- Embeds `analyzeIssues`: the issue/suggestion pairs appended for
below-threshold metrics, in source order (a missing metric reads as the
map's zero value). -/
def analyzeIssues (metrics : List (String × ℚ)) : List String × List String :=
  let get (k : String) : ℚ := (metrics.lookup k).getD 0
  let pairs :=
    (if get "completeness" < 6 / 10 then
      [("Response may be incomplete", "Consider providing more detailed information")]
     else [])
    ++ (if get "clarity" < 6 / 10 then
      [("Response may be unclear", "Break down complex information into clearer steps")]
     else [])
    ++ (if get "relevance" < 1 / 2 then
      [("Response may not be relevant to the request",
        "Focus more directly on the user\x27s specific question")]
     else [])
    ++ (if get "specificity" < 1 / 2 then
      [("Response is too vague", "Provide more specific examples and concrete steps")]
     else [])
    ++ (if get "error_indicators" < 8 / 10 then
      [("Response contains error indicators",
        "Verify the accuracy of the information provided")]
     else [])
  (pairs.map (·.1), pairs.map (·.2))

/-- Embeds `ResponseQuality` (the timestamp is omitted). -/
structure ResponseQuality where
  score : ℚ
  confidence : ℚ
  issues : List String
  suggestions : List String
  requiresRetry : Bool
  metrics : List (String × ℚ)

/-- Embeds `EvaluateResponse`: a disabled gate is a no-op with a perfect
score; otherwise the five metrics are computed, combined by
`calculateOverallScore`, and `requiresRetry` is `score <
minQualityThreshold`. -/
def EvaluateResponse (enabled : Bool) (minQualityThreshold : ℚ)
    (userMessage response : Message) : ResponseQuality :=
  if !enabled then ⟨1, 1 / 2, [], [], false, []⟩
  else
    let responseText := extractTextContent response
    let userText := extractTextContent userMessage
    let metrics :=
      [("completeness", calculateCompleteness userText responseText),
       ("clarity", calculateClarity responseText),
       ("relevance", calculateRelevance userText responseText),
       ("specificity", calculateSpecificity responseText),
       ("error_indicators", detectErrorIndicators responseText)]
    let score := calculateOverallScore metrics
    let confidence := calculateConfidence metrics responseText
    let issuePairs := analyzeIssues metrics
    ⟨score, confidence, issuePairs.1, issuePairs.2,
      decide (score < minQualityThreshold), metrics⟩

end Crush.Feedback

/-- C9: for every enabled evaluation, the overall quality score equals the
fixed-weight sum completeness × 0.30 + clarity × 0.20 + relevance × 0.25 +
specificity × 0.15 + error-indicators × 0.10 over the five computed
metrics, and `requiresRetry` holds exactly when that score is strictly
below the configured threshold. -/
theorem evaluateResponse_score_weighted (thr : ℚ)
    (user resp : Crush.Agent.Message) :
    (Crush.Feedback.EvaluateResponse true thr user resp).score
      = Crush.Feedback.calculateCompleteness (Crush.Feedback.extractTextContent user)
          (Crush.Feedback.extractTextContent resp) * (30 / 100)
        + Crush.Feedback.calculateClarity (Crush.Feedback.extractTextContent resp)
          * (20 / 100)
        + Crush.Feedback.calculateRelevance (Crush.Feedback.extractTextContent user)
          (Crush.Feedback.extractTextContent resp) * (25 / 100)
        + Crush.Feedback.calculateSpecificity (Crush.Feedback.extractTextContent resp)
          * (15 / 100)
        + Crush.Feedback.detectErrorIndicators (Crush.Feedback.extractTextContent resp)
          * (10 / 100)
    ∧ ((Crush.Feedback.EvaluateResponse true thr user resp).requiresRetry = true
        ↔ (Crush.Feedback.EvaluateResponse true thr user resp).score < thr) := by
  constructor
  · simp [Crush.Feedback.EvaluateResponse, Crush.Feedback.calculateOverallScore,
      Crush.Feedback.metricWeights, List.lookup]
    norm_num
  · simp only [Crush.Feedback.EvaluateResponse, Bool.not_true, Bool.false_eq_true,
      if_false]
    exact decide_eq_true_iff
